import Mathlib

/-!
Verification of an intrusive doubly-linked list (`src/intrusive_list.h`).

Shallow embedding: node addresses are natural numbers, `nullptr` is `none`,
and the program heap is a total function from addresses to link records.
Each C++ member function is translated statement by statement: every pointer
write becomes a heap update, every pointer read reads the heap at the moment
the corresponding C++ expression is evaluated, and a dereference of a null
pointer makes the operation return `none`.
-/

namespace IntrusiveList

/-- The embedded link record `list_element` (source lines 9-23): two pointers
`next` and `prev`, both null (`none`) in the detached state. -/
structure list_element where
  next : Option Nat := none
  prev : Option Nat := none
deriving DecidableEq, Repr

attribute [ext] list_element

/-- The heap: every address holds a `list_element`. -/
abbrev Heap := Nat → list_element

/-- Write the `next` field of the record at address `a`. -/
def setNext (h : Heap) (a : Nat) (v : Option Nat) : Heap :=
  fun b => if b = a then { h a with next := v } else h b

/-- Write the `prev` field of the record at address `a`. -/
def setPrev (h : Heap) (a : Nat) (v : Option Nat) : Heap :=
  fun b => if b = a then { h a with prev := v } else h b

@[simp] theorem setNext_next (h : Heap) (a b : Nat) (v : Option Nat) :
    (setNext h a v b).next = if b = a then v else (h b).next := by
  by_cases hb : b = a <;> simp [setNext, hb]

@[simp] theorem setNext_prev (h : Heap) (a b : Nat) (v : Option Nat) :
    (setNext h a v b).prev = (h b).prev := by
  by_cases hb : b = a <;> simp [setNext, hb]

@[simp] theorem setPrev_prev (h : Heap) (a b : Nat) (v : Option Nat) :
    (setPrev h a v b).prev = if b = a then v else (h b).prev := by
  by_cases hb : b = a <;> simp [setPrev, hb]

@[simp] theorem setPrev_next (h : Heap) (a b : Nat) (v : Option Nat) :
    (setPrev h a v b).next = (h b).next := by
  by_cases hb : b = a <;> simp [setPrev, hb]

theorem setNext_apply_ne (h : Heap) {a b : Nat} (v : Option Nat) (hne : b ≠ a) :
    setNext h a v b = h b := by simp [setNext, hne]

theorem setPrev_apply_ne (h : Heap) {a b : Nat} (v : Option Nat) (hne : b ≠ a) :
    setPrev h a v b = h b := by simp [setPrev, hne]

/-- `list_element::unlink` (source lines 13-22):
`if (next) next->prev = prev; if (prev) prev->next = next; next = prev = null`.
Both guards reread the fields of `this`, so the second statement sees the
effect of the first when `next` aliases `this`. -/
def unlink (h : Heap) (a : Nat) : Heap :=
  let h1 := match (h a).next with
    | some nx => setPrev h nx ((h a).prev)
    | none => h
  let h2 := match (h1 a).prev with
    | some pw => setNext h1 pw ((h1 a).next)
    | none => h1
  setPrev (setNext h2 a none) a none

/-- `list::list()` (source lines 157-161): `fake.next = &fake; fake.prev = &fake`. -/
def mkList (h : Heap) (f : Nat) : Heap :=
  setPrev (setNext h f (some f)) f (some f)

/-- `list::clear` (source lines 181-186): `while (fake.next != &fake)
fake.next->unlink();`, with explicit fuel for the loop.  `none` means the
fuel ran out or the loop dereferenced a null `fake.next`. -/
def clearFuel : Nat → Heap → Nat → Option Heap
  | 0, h, f => if (h f).next = some f then some h else none
  | fuel + 1, h, f =>
    if (h f).next = some f then some h
    else
      match (h f).next with
      | some nx => clearFuel fuel (unlink h nx) f
      | none => none

/-- `list::push_back` (source lines 188-197): `cur.next = &fake;
cur.prev = fake.prev; fake.prev->next = &cur; fake.prev = &cur;`. -/
def push_back (h : Heap) (fake e : Nat) : Option Heap :=
  let h1 := setNext h e (some fake)
  let h2 := setPrev h1 e ((h1 fake).prev)
  match (h2 fake).prev with
  | none => none
  | some p =>
    let h3 := setNext h2 p (some e)
    some (setPrev h3 fake (some e))

/-- `list::pop_back` (source lines 199-202): `fake.prev->unlink();`. -/
def pop_back (h : Heap) (fake : Nat) : Option Heap :=
  match (h fake).prev with
  | none => none
  | some p => some (unlink h p)

/-- `list::push_front` (source lines 214-223): `cur.prev = &fake;
cur.next = fake.next; fake.next->prev = &cur; fake.next = &cur;`. -/
def push_front (h : Heap) (fake e : Nat) : Option Heap :=
  let h1 := setPrev h e (some fake)
  let h2 := setNext h1 e ((h1 fake).next)
  match (h2 fake).next with
  | none => none
  | some n =>
    let h3 := setPrev h2 n (some e)
    some (setNext h3 fake (some e))

/-- `list::pop_front` (source lines 225-228): `fake.next->unlink();`. -/
def pop_front (h : Heap) (fake : Nat) : Option Heap :=
  match (h fake).next with
  | none => none
  | some n => some (unlink h n)

/-- `list::empty` (source lines 240-243): `&fake == fake.next`. -/
def empty (h : Heap) (fake : Nat) : Bool :=
  some fake == (h fake).next

/-- `list::begin` (source lines 245-248): an iterator holding `fake.next`. -/
def begin (h : Heap) (fake : Nat) : Option Nat :=
  (h fake).next

/-- `list::insert` (source lines 265-274): links `val` immediately before
`pos` and returns an iterator to it.  `new.next = &pos; new.prev = pos.prev;
pos.prev->next = &new; pos.prev = &new; return iterator(&new)`. -/
def insert (h : Heap) (pos e : Nat) : Option (Heap × Nat) :=
  let h1 := setNext h e (some pos)
  let h2 := setPrev h1 e ((h1 pos).prev)
  match (h2 pos).prev with
  | none => none
  | some p =>
    let h3 := setNext h2 p (some e)
    some (setPrev h3 pos (some e), e)

/-- `list::erase` (source lines 276-282): remembers `pos->next`, unlinks the
node at `pos`, and returns an iterator holding the remembered pointer. -/
def erase (h : Heap) (pos : Nat) : Heap × Option Nat :=
  let ret := (h pos).next
  (unlink h pos, ret)

/-- `list::splice` (source lines 284-303).  `other` is never read by the
source body, so it is not a parameter here; the range is given by the
iterator addresses `first` and `last`.  All reads happen at the program
point of the corresponding C++ expression. -/
def splice (h : Heap) (pos first last : Nat) : Option Heap :=
  if first = last then some h
  else
    match (h pos).prev with
    | none => none
    | some to_left =>
      match (h last).prev with
      | none => none
      | some from_right =>
        let hA := setNext h to_left (some first)
        let hB := setPrev hA pos (some from_right)
        match (hB first).prev with
        | none => none
        | some flp =>
          let hC := setNext hB flp ((hB from_right).next)
          match (hC from_right).next with
          | none => none
          | some frn =>
            let hD := setPrev hC frn ((hC first).prev)
            let hE := setPrev hD first (some to_left)
            some (setNext hE from_right (some pos))

/-- `list::swap` (source lines 305-318): re-point the boundary nodes of each
chain at the other sentinel, then `std::swap` the two sentinel records.
`my_next`/`my_prev` are bound before any write, `rhs_next`/`rhs_prev` after
the first two writes, exactly as the reference bindings in the source. -/
def listSwap (h : Heap) (a b : Nat) : Option Heap :=
  match (h a).next with
  | none => none
  | some my_next =>
    match (h a).prev with
    | none => none
    | some my_prev =>
      let h1 := setPrev h my_next (some b)
      let h2 := setNext h1 my_prev (some b)
      match (h2 b).next with
      | none => none
      | some rhs_next =>
        match (h2 b).prev with
        | none => none
        | some rhs_prev =>
          let h3 := setPrev h2 rhs_next (some a)
          let h4 := setNext h3 rhs_prev (some a)
          some (fun x => if x = a then h4 b else if x = b then h4 a else h4 x)

/-- `list::list(list&&)` (source lines 163-167): default-construct a new
sentinel `g`, swap with the source list `rhs`, then clear the source. -/
def moveCtor (h : Heap) (g rhs fuel : Nat) : Option Heap :=
  let h1 := mkList h g
  match listSwap h1 g rhs with
  | none => none
  | some h2 => clearFuel fuel h2 rhs

/-- `list::operator=(list&&)` (source lines 174-179): `swap(rhs); rhs.clear();`. -/
def moveAssign (h : Heap) (this rhs fuel : Nat) : Option Heap :=
  match listSwap h this rhs with
  | none => none
  | some h2 => clearFuel fuel h2 rhs

/-! ## Chain segments

`seg h a xs b` says: starting at node `a`, the `next` pointers pass exactly
through `xs` and then reach `b`, with matching `prev` back-links all along.
It constrains the `next` fields of `a :: xs` and the `prev` fields of
`xs ++ [b]`, and nothing else.  A well-formed list with sentinel `f` and
elements `xs` is exactly `seg h f xs f` with `(f :: xs).Nodup`. -/

def seg (h : Heap) (a : Nat) : List Nat → Nat → Prop
  | [], b => (h a).next = some b ∧ (h b).prev = some a
  | x :: xs, b => (h a).next = some x ∧ (h x).prev = some a ∧ seg h x xs b

def seg.dec (h : Heap) : (a : Nat) → (xs : List Nat) → (b : Nat) → Decidable (seg h a xs b)
  | _, [], _ => by unfold seg; infer_instance
  | _, x :: xs, b => by
    unfold seg
    have := seg.dec h x xs b
    infer_instance

instance (h : Heap) (a : Nat) (xs : List Nat) (b : Nat) : Decidable (seg h a xs b) :=
  seg.dec h a xs b

@[simp] theorem seg_nil {h : Heap} {a b : Nat} :
    seg h a [] b ↔ (h a).next = some b ∧ (h b).prev = some a := Iff.rfl

@[simp] theorem seg_cons {h : Heap} {a x b : Nat} {xs : List Nat} :
    seg h a (x :: xs) b ↔ (h a).next = some x ∧ (h x).prev = some a ∧ seg h x xs b := Iff.rfl

/-- Frame rule: a segment only depends on the `next` fields of `a :: xs` and
the `prev` fields of `xs ++ [b]`. -/
theorem seg_congr {h h' : Heap} {a b : Nat} {xs : List Nat}
    (hnext : ∀ n ∈ a :: xs, (h' n).next = (h n).next)
    (hprev : ∀ n ∈ xs ++ [b], (h' n).prev = (h n).prev)
    (hs : seg h a xs b) : seg h' a xs b := by
  induction xs generalizing a with
  | nil =>
    exact ⟨(hnext a (by simp)).trans hs.1, (hprev b (by simp)).trans hs.2⟩
  | cons x xs ih =>
    obtain ⟨e1, e2, e3⟩ := hs
    refine ⟨(hnext a (by simp)).trans e1, (hprev x (by simp)).trans e2, ?_⟩
    exact ih (fun n hn => hnext n (by simp at hn ⊢; tauto))
      (fun n hn => hprev n (by simp at hn ⊢; tauto)) e3

/-- Segments split and join at any interior node. -/
theorem seg_append {h : Heap} {a c b : Nat} {xs ys : List Nat} :
    seg h a (xs ++ c :: ys) b ↔ seg h a xs c ∧ seg h c ys b := by
  induction xs generalizing a with
  | nil => simp [and_assoc]
  | cons x xs ih => simp [ih, and_assoc]

theorem seg_head {h : Heap} {a b : Nat} {xs : List Nat} (hs : seg h a xs b) :
    (h a).next = some (xs.headD b) := by
  cases xs with
  | nil => exact hs.1
  | cons x xs => exact hs.1

theorem seg_last {h : Heap} {a b : Nat} {xs : List Nat} (hs : seg h a xs b) :
    (h b).prev = some (xs.getLastD a) := by
  induction xs generalizing a with
  | nil => exact hs.2
  | cons x xs ih =>
    rw [List.getLastD_cons]
    exact ih hs.2.2

/-- Every node on a segment has a `next` pointer whose target points back. -/
theorem seg_next_total {h : Heap} {a b : Nat} {xs : List Nat} (hs : seg h a xs b) :
    ∀ n ∈ a :: xs, ∃ m, (h n).next = some m ∧ (h m).prev = some n := by
  induction xs generalizing a with
  | nil =>
    intro n hn
    simp only [List.mem_singleton] at hn
    exact hn ▸ ⟨b, hs.1, hs.2⟩
  | cons x xs ih =>
    intro n hn
    rcases List.mem_cons.1 hn with rfl | hn
    · exact ⟨x, hs.1, hs.2.1⟩
    · exact ih hs.2.2 n hn

/-- Every node on a segment has a `prev` pointer whose target points back. -/
theorem seg_prev_total {h : Heap} {a b : Nat} {xs : List Nat} (hs : seg h a xs b) :
    ∀ n ∈ xs ++ [b], ∃ m, (h n).prev = some m ∧ (h m).next = some n := by
  induction xs generalizing a with
  | nil =>
    intro n hn
    simp only [List.nil_append, List.mem_singleton] at hn
    exact hn ▸ ⟨a, hs.2, hs.1⟩
  | cons x xs ih =>
    intro n hn
    rw [List.cons_append] at hn
    rcases List.mem_cons.1 hn with rfl | hn
    · exact ⟨a, hs.2.1, hs.1⟩
    · exact ih hs.2.2 n hn

/-- Endpoint replacement: if the last node of `x :: rest` is re-aimed at a
new endpoint `f2` whose `prev` equals the old endpoint's `prev`, and no other
relevant field changed, the segment now ends at `f2`. -/
theorem seg_retarget {h h' : Heap} {x f f2 : Nat} {rest : List Nat}
    (hs : seg h x rest f)
    (hnd : (x :: rest).Nodup)
    (hlast : (h' ((x :: rest).getLast (List.cons_ne_nil x rest))).next = some f2)
    (hf2 : (h' f2).prev = (h f).prev)
    (hnext : ∀ n ∈ x :: rest,
      n ≠ (x :: rest).getLast (List.cons_ne_nil x rest) → (h' n).next = (h n).next)
    (hprev : ∀ n ∈ rest, (h' n).prev = (h n).prev) :
    seg h' x rest f2 := by
  induction rest generalizing x with
  | nil =>
    refine ⟨?_, ?_⟩
    · simpa using hlast
    · rw [hf2]; exact hs.2
  | cons y rest ih =>
    obtain ⟨e1, e2, e3⟩ := hs
    have hg : (x :: y :: rest).getLast (List.cons_ne_nil x (y :: rest)) =
        (y :: rest).getLast (List.cons_ne_nil y rest) := by
      rw [List.getLast_cons]
    have hxl : x ≠ (x :: y :: rest).getLast (List.cons_ne_nil x (y :: rest)) := by
      rw [hg]
      intro hx
      exact (List.nodup_cons.1 hnd).1 (hx ▸ List.getLast_mem (List.cons_ne_nil y rest))
    refine ⟨?_, ?_, ?_⟩
    · rw [hnext x (by simp) hxl]; exact e1
    · rw [hprev y (by simp)]; exact e2
    · refine ih e3 (List.nodup_cons.1 hnd).2 (by rw [← hg]; exact hlast) ?_ ?_
      · intro n hn hne
        exact hnext n (List.mem_cons_of_mem x hn) (by rw [hg]; exact hne)
      · intro n hn
        exact hprev n (List.mem_cons_of_mem y hn)

/-! ## Traversal helpers -/

/-- Iterate `operator++` (follow `next`) `k` times from an iterator value. -/
def nthNext (h : Heap) : Nat → Option Nat → Option Nat
  | 0, o => o
  | k + 1, o =>
    match o with
    | none => none
    | some a => nthNext h k ((h a).next)

/-- Iterate `operator--` (follow `prev`) `k` times from an iterator value. -/
def nthPrev (h : Heap) : Nat → Option Nat → Option Nat
  | 0, o => o
  | k + 1, o =>
    match o with
    | none => none
    | some a => nthPrev h k ((h a).prev)

theorem seg_nthNext {h : Heap} {a b : Nat} {xs : List Nat} (hs : seg h a xs b) :
    nthNext h (xs.length + 1) (some a) = some b := by
  induction xs generalizing a with
  | nil => simpa [nthNext] using hs.1
  | cons x xs ih =>
    have : nthNext h (xs.length + 1 + 1) (some a) = nthNext h (xs.length + 1) ((h a).next) := rfl
    rw [List.length_cons, this, hs.1]
    exact ih hs.2.2

theorem nthPrev_succ_right (h : Heap) (k : Nat) (o : Option Nat) :
    nthPrev h (k + 1) o = (nthPrev h k o).bind (fun c => (h c).prev) := by
  induction k generalizing o with
  | zero => cases o <;> simp [nthPrev]
  | succ k ih =>
    cases o with
    | none => simp [nthPrev]
    | some a =>
      show nthPrev h (k + 1) ((h a).prev) = (nthPrev h (k + 1) (some a)).bind _
      rw [ih ((h a).prev)]
      rfl

theorem seg_nthPrev {h : Heap} {a b : Nat} {xs : List Nat} (hs : seg h a xs b) :
    nthPrev h (xs.length + 1) (some b) = some a := by
  induction xs generalizing a with
  | nil => simpa [nthPrev] using hs.2
  | cons x xs ih =>
    rw [List.length_cons, nthPrev_succ_right, ih hs.2.2]
    exact hs.2.1

/-- Collect the chain of addresses from an iterator value until the sentinel
`f` is reached, with fuel. -/
def toListAux (h : Heap) (f : Nat) : Nat → Option Nat → Option (List Nat)
  | _, none => none
  | 0, some c => if c = f then some [] else none
  | fuel + 1, some c =>
    if c = f then some []
    else
      match toListAux h f fuel ((h c).next) with
      | some l => some (c :: l)
      | none => none

/-- The element sequence of the list with sentinel `f`, read from `begin()`
to `end()` by following `next` pointers. -/
def heapToList (h : Heap) (f fuel : Nat) : Option (List Nat) :=
  toListAux h f fuel ((h f).next)

theorem seg_toListAux {h : Heap} {a f : Nat} {xs : List Nat}
    (hs : seg h a xs f) (hf : f ∉ xs) :
    ∀ fuel, xs.length ≤ fuel → toListAux h f fuel ((h a).next) = some xs := by
  induction xs generalizing a with
  | nil =>
    intro fuel _
    rw [hs.1]
    cases fuel <;> simp [toListAux]
  | cons x xs ih =>
    intro fuel hfuel
    rw [hs.1]
    cases fuel with
    | zero => simp at hfuel
    | succ fuel =>
      have hxf : x ≠ f := fun hx => hf (hx ▸ List.mem_cons_self x xs)
      have := ih hs.2.2 (fun hm => hf (List.mem_cons_of_mem _ hm)) fuel (by
        simpa using Nat.lt_succ_iff.1 (Nat.lt_of_lt_of_le (Nat.lt_succ_self _) hfuel))
      simp [toListAux, hxf, this]

theorem seg_heapToList {h : Heap} {f : Nat} {xs : List Nat}
    (hs : seg h f xs f) (hf : f ∉ xs) :
    heapToList h f xs.length = some xs :=
  seg_toListAux hs hf xs.length le_rfl

/-! ## Normal forms of the operations

Under the hypotheses that make all pointer reads succeed, each operation
equals an explicit sequence of field writes. -/

theorem unlink_nf {h : Heap} {a nx pw : Nat}
    (hn : (h a).next = some nx) (hp : (h a).prev = some pw)
    (hna : nx ≠ a) :
    unlink h a =
      setPrev (setNext (setNext (setPrev h nx (some pw)) pw (some nx)) a none) a none := by
  have e1 : ((setPrev h nx (some pw)) a).prev = some pw := by
    rw [setPrev_prev, if_neg (Ne.symm hna), hp]
  have e2 : ((setPrev h nx (some pw)) a).next = some nx := by
    rw [setPrev_next, hn]
  unfold unlink
  simp only [hn, hp, e1, e2]

theorem unlink_detached {h : Heap} {a : Nat}
    (hn : (h a).next = none) (hp : (h a).prev = none) :
    unlink h a = h := by
  have hrec : h a = ⟨none, none⟩ := by
    cases hq : h a
    rw [hq] at hn hp
    simp at hn hp
    rw [hn, hp]
  unfold unlink
  simp only [hn, hp]
  funext b
  by_cases hb : b = a
  · subst hb; simp [setPrev, setNext, hrec]
  · simp [setPrev, setNext, hb]

theorem unlink_self (h : Heap) (a : Nat) : (unlink h a) a = ⟨none, none⟩ := by
  unfold unlink
  simp [setPrev, setNext]

/-- Unlinking twice in a row: the second call is a no-op. -/
theorem unlink_idem (h : Heap) (a : Nat) : unlink (unlink h a) a = unlink h a := by
  have hu := unlink_self h a
  exact unlink_detached (by rw [hu]) (by rw [hu])

@[simp] theorem mkList_self (h : Heap) (f : Nat) : mkList h f f = ⟨some f, some f⟩ := by
  simp [mkList, setPrev, setNext]

theorem mkList_ne (h : Heap) {f n : Nat} (hne : n ≠ f) : mkList h f n = h n := by
  simp [mkList, setPrev, setNext, hne]

theorem push_back_nf {h : Heap} {f e p : Nat}
    (hp : (h f).prev = some p) (hef : e ≠ f) :
    push_back h f e =
      some (setPrev (setNext (setPrev (setNext h e (some f)) e (some p)) p (some e))
        f (some e)) := by
  have e1 : ((setNext h e (some f)) f).prev = some p := by rw [setNext_prev, hp]
  have e2 : ((setPrev (setNext h e (some f)) e (some p)) f).prev = some p := by
    rw [setPrev_prev, if_neg (Ne.symm hef), setNext_prev, hp]
  unfold push_back
  simp only [e1, e2]

theorem push_front_nf {h : Heap} {f e x : Nat}
    (hx : (h f).next = some x) (hef : e ≠ f) :
    push_front h f e =
      some (setNext (setPrev (setNext (setPrev h e (some f)) e (some x)) x (some e))
        f (some e)) := by
  have e1 : ((setPrev h e (some f)) f).next = some x := by rw [setPrev_next, hx]
  have e2 : ((setNext (setPrev h e (some f)) e (some x)) f).next = some x := by
    rw [setNext_next, if_neg (Ne.symm hef), setPrev_next, hx]
  unfold push_front
  simp only [e1, e2]

theorem pop_back_nf {h : Heap} {f p : Nat} (hp : (h f).prev = some p) :
    pop_back h f = some (unlink h p) := by
  simp [pop_back, hp]

theorem pop_front_nf {h : Heap} {f x : Nat} (hx : (h f).next = some x) :
    pop_front h f = some (unlink h x) := by
  simp [pop_front, hx]

theorem insert_nf {h : Heap} {pos e w : Nat}
    (hw : (h pos).prev = some w) (hep : e ≠ pos) :
    insert h pos e =
      some (setPrev (setNext (setPrev (setNext h e (some pos)) e (some w)) w (some e))
        pos (some e), e) := by
  have e1 : ((setNext h e (some pos)) pos).prev = some w := by rw [setNext_prev, hw]
  have e2 : ((setPrev (setNext h e (some pos)) e (some w)) pos).prev = some w := by
    rw [setPrev_prev, if_neg (Ne.symm hep), setNext_prev, hw]
  unfold insert
  simp only [e1, e2]

theorem splice_nf {h : Heap} {pos first last tl fr w1 w2 : Nat}
    (hne : first ≠ last)
    (htl : (h pos).prev = some tl)
    (hfr : (h last).prev = some fr)
    (hw1 : (h first).prev = some w1)
    (hw2 : (h fr).next = some w2)
    (hfp : first ≠ pos) (hft : fr ≠ tl) :
    splice h pos first last =
      some (setNext (setPrev (setPrev (setNext (setPrev (setNext h tl (some first))
        pos (some fr)) w1 (some w2)) w2 (some w1)) first (some tl)) fr (some pos)) := by
  have e1 : ((setPrev (setNext h tl (some first)) pos (some fr)) first).prev = some w1 := by
    rw [setPrev_prev, if_neg hfp, setNext_prev, hw1]
  have e2 : ((setPrev (setNext h tl (some first)) pos (some fr)) fr).next = some w2 := by
    rw [setPrev_next, setNext_next, if_neg hft, hw2]
  have e3 : ((setNext (setPrev (setNext h tl (some first)) pos (some fr)) w1 (some w2))
      fr).next = some w2 := by
    rw [setNext_next]
    by_cases hfw : fr = w1
    · rw [if_pos hfw]
    · rw [if_neg hfw, setPrev_next, setNext_next, if_neg hft, hw2]
  have e4 : ((setNext (setPrev (setNext h tl (some first)) pos (some fr)) w1 (some w2))
      first).prev = some w1 := by
    rw [setNext_prev, setPrev_prev, if_neg hfp, setNext_prev, hw1]
  unfold splice
  simp only [if_neg hne, htl, hfr, e1, e2, e3, e4]

theorem listSwap_nf {h : Heap} {a b mn mp rn rp : Nat}
    (h1 : (h a).next = some mn) (h2 : (h a).prev = some mp)
    (h3 : (h b).next = some rn) (h4 : (h b).prev = some rp)
    (hb1 : b ≠ mn) (hb2 : b ≠ mp) :
    listSwap h a b =
      some (fun x =>
        if x = a then
          (setNext (setPrev (setNext (setPrev h mn (some b)) mp (some b)) rn (some a))
            rp (some a)) b
        else if x = b then
          (setNext (setPrev (setNext (setPrev h mn (some b)) mp (some b)) rn (some a))
            rp (some a)) a
        else
          (setNext (setPrev (setNext (setPrev h mn (some b)) mp (some b)) rn (some a))
            rp (some a)) x) := by
  have e1 : ((setNext (setPrev h mn (some b)) mp (some b)) b).next = some rn := by
    rw [setNext_next, if_neg hb2, setPrev_next, h3]
  have e2 : ((setNext (setPrev h mn (some b)) mp (some b)) b).prev = some rp := by
    rw [setNext_prev, setPrev_prev, if_neg hb1, h4]
  unfold listSwap
  simp only [h1, h2, e1, e2]

/-! ## Effect of each operation on a well-formed ring

A ring with sentinel `f` and elements `xs` is `seg h f xs f` together with
`(f :: xs).Nodup`.  Positions are encoded by splitting `xs`: the iterator
standing at the head of `v` in `xs = u ++ v` (the sentinel itself, i.e.
`end()`, when `v = []`) has address `v.headD f`. -/

theorem ring_nodup_parts {f : Nat} {u v : List Nat} (hnd : (f :: (u ++ v)).Nodup) :
    f ∉ u ∧ f ∉ v ∧ u.Nodup ∧ v.Nodup ∧ u.Disjoint v := by
  rcases List.nodup_cons.1 hnd with ⟨hf, huv⟩
  rcases List.nodup_append.1 huv with ⟨hu, hv, hd⟩
  exact ⟨fun hq => hf (List.mem_append_left _ hq),
    fun hq => hf (List.mem_append_right _ hq), hu, hv, hd⟩

theorem headD_mem_cons (v : List Nat) (f : Nat) : v.headD f ∈ f :: v := by
  cases v <;> simp

/-- `insert` links the fresh node `e` immediately before the position at the
head of `v`, producing the ring `u ++ e :: v`; only the `next` of the
predecessor, the `prev` of the position, and the two fields of `e` change. -/
theorem insert_ring {h : Heap} {f e : Nat} {u v : List Nat}
    (hs : seg h f (u ++ v) f) (hnd : (f :: (u ++ v)).Nodup) (he : e ∉ f :: (u ++ v)) :
    ∃ h2, insert h (v.headD f) e = some (h2, e) ∧
      seg h2 f (u ++ e :: v) f ∧
      (∀ n, (h2 n).next =
        if n = u.getLastD f then some e else if n = e then some (v.headD f) else (h n).next) ∧
      (∀ n, (h2 n).prev =
        if n = v.headD f then some e else if n = e then some (u.getLastD f) else (h n).prev) := by
  obtain ⟨hfu, hfv, hu, hv, huv⟩ := ring_nodup_parts hnd
  have hwmem : u.getLastD f ∈ f :: u := List.getLastD_mem_cons u f
  have hposmem : v.headD f ∈ f :: v := headD_mem_cons v f
  have hwring : u.getLastD f ∈ f :: (u ++ v) := by
    rcases List.mem_cons.1 hwmem with h1 | h1
    · rw [h1]; exact List.mem_cons_self _ _
    · exact List.mem_cons_of_mem _ (List.mem_append_left _ h1)
  have hposring : v.headD f ∈ f :: (u ++ v) := by
    rcases List.mem_cons.1 hposmem with h1 | h1
    · rw [h1]; exact List.mem_cons_self _ _
    · exact List.mem_cons_of_mem _ (List.mem_append_right _ h1)
  have hef : e ≠ f := fun hq => he (hq ▸ List.mem_cons_self _ _)
  have heu : e ∉ u := fun hq => he (List.mem_cons_of_mem _ (List.mem_append_left _ hq))
  have hev : e ∉ v := fun hq => he (List.mem_cons_of_mem _ (List.mem_append_right _ hq))
  have hew : e ≠ u.getLastD f := fun hq => he (hq ▸ hwring)
  have hepos : e ≠ v.headD f := fun hq => he (hq ▸ hposring)
  -- the segment before the position, and the prev pointer of the position
  have s1 : seg h f u (v.headD f) := by
    cases v with
    | nil => simpa using hs
    | cons x v2 => exact (seg_append.1 hs).1
  have hpp : (h (v.headD f)).prev = some (u.getLastD f) := seg_last s1
  obtain hins := insert_nf hpp hepos
  have hnextF : ∀ n, ((setPrev (setNext (setPrev (setNext h e (some (v.headD f))) e
      (some (u.getLastD f))) (u.getLastD f) (some e)) (v.headD f) (some e)) n).next =
      if n = u.getLastD f then some e
      else if n = e then some (v.headD f) else (h n).next := by
    intro n
    simp only [setPrev_next, setNext_next]
  have hprevF : ∀ n, ((setPrev (setNext (setPrev (setNext h e (some (v.headD f))) e
      (some (u.getLastD f))) (u.getLastD f) (some e)) (v.headD f) (some e)) n).prev =
      if n = v.headD f then some e
      else if n = e then some (u.getLastD f) else (h n).prev := by
    intro n
    simp only [setPrev_prev, setNext_prev]
  have hsegA : seg (setPrev (setNext (setPrev (setNext h e (some (v.headD f))) e
      (some (u.getLastD f))) (u.getLastD f) (some e)) (v.headD f) (some e)) f u e := by
    refine seg_retarget s1 (List.nodup_cons.2 ⟨hfu, hu⟩) ?_ ?_ ?_ ?_
    · rw [List.getLast_eq_getLastD, hnextF, if_pos rfl]
    · rw [hprevF, if_neg hepos, if_pos rfl, hpp]
    · intro n hn hne
      rw [List.getLast_eq_getLastD] at hne
      have hne2 : n ≠ e := by
        intro hq
        subst hq
        rcases List.mem_cons.1 hn with h1 | h1
        · exact hef h1
        · exact heu h1
      rw [hnextF, if_neg hne, if_neg hne2]
    · intro n hn
      have hne1 : n ≠ v.headD f := by
        rcases List.mem_cons.1 hposmem with h1 | h1
        · rw [h1]; exact fun hq => hfu (hq ▸ hn)
        · exact fun hq => huv hn (by rw [hq]; exact h1)
      have hne2 : n ≠ e := fun hq => heu (hq ▸ hn)
      rw [hprevF, if_neg hne1, if_neg hne2]
  have hsegB : seg (setPrev (setNext (setPrev (setNext h e (some (v.headD f))) e
      (some (u.getLastD f))) (u.getLastD f) (some e)) (v.headD f) (some e)) e v f := by
    cases v with
    | nil =>
      simp only [List.headD_nil] at hnextF hprevF ⊢
      refine ⟨?_, ?_⟩
      · rw [hnextF, if_neg hew, if_pos rfl]
      · rw [hprevF, if_pos rfl]
    | cons x v2 =>
      simp only [List.headD_cons] at hnextF hprevF ⊢
      have s2 : seg h x v2 f := (seg_append.1 hs).2
      have hxv : x ∈ x :: v2 := List.mem_cons_self x v2
      refine ⟨?_, ?_, ?_⟩
      · rw [hnextF, if_neg hew, if_pos rfl]
      · rw [hprevF, if_pos rfl]
      · refine seg_congr ?_ ?_ s2
        · intro n hn
          have hne1 : n ≠ u.getLastD f := by
            rcases List.mem_cons.1 hwmem with h1 | h1
            · intro hq; rw [hq, h1] at hn; exact hfv hn
            · intro hq; exact huv (hq ▸ h1) hn
          have hne2 : n ≠ e := fun hq => hev (hq ▸ hn)
          rw [hnextF, if_neg hne1, if_neg hne2]
        · intro n hn
          rcases List.mem_append.1 hn with h1 | h1
          · have hne1 : n ≠ x := fun hq => (List.nodup_cons.1 hv).1 (hq ▸ h1)
            have hne2 : n ≠ e := fun hq => hev (hq ▸ List.mem_cons_of_mem _ h1)
            rw [hprevF, if_neg hne1, if_neg hne2]
          · have hnf : n = f := by simpa using h1
            have hne1 : n ≠ x := by
              rw [hnf]; intro hq; exact hfv (by rw [hq]; exact hxv)
            have hne2 : n ≠ e := by rw [hnf]; exact fun hq => hef hq.symm
            rw [hprevF, if_neg hne1, if_neg hne2]
  exact ⟨_, hins, seg_append.2 ⟨hsegA, hsegB⟩, hnextF, hprevF⟩

/-- `unlink` on a ring node: the ring `u ++ pos :: v` becomes `u ++ v`, the
node at `pos` is detached, and besides `pos` only the predecessor's `next`
and the successor's `prev` change. -/
theorem unlink_ring {h : Heap} {f pos : Nat} {u v : List Nat}
    (hs : seg h f (u ++ pos :: v) f) (hnd : (f :: (u ++ pos :: v)).Nodup) :
    seg (unlink h pos) f (u ++ v) f ∧
    (unlink h pos) pos = ⟨none, none⟩ ∧
    (∀ n, ((unlink h pos) n).next =
      if n = pos then none
      else if n = u.getLastD f then some (v.headD f) else (h n).next) ∧
    (∀ n, ((unlink h pos) n).prev =
      if n = pos then none
      else if n = v.headD f then some (u.getLastD f) else (h n).prev) := by
  have hnd0 := List.nodup_cons.1 hnd
  have hf_u : f ∉ u := fun hq => hnd0.1 (List.mem_append_left _ hq)
  have hf_pos : f ≠ pos := fun hq =>
    hnd0.1 (List.mem_append_right _ (by rw [hq]; exact List.mem_cons_self _ _))
  have hf_v : f ∉ v := fun hq =>
    hnd0.1 (List.mem_append_right _ (List.mem_cons_of_mem _ hq))
  have hmid := List.nodup_middle.1 hnd0.2
  have hpos_uv : pos ∉ u ++ v := (List.nodup_cons.1 hmid).1
  have hpos_u : pos ∉ u := fun hq => hpos_uv (List.mem_append_left _ hq)
  have hpos_v : pos ∉ v := fun hq => hpos_uv (List.mem_append_right _ hq)
  have huv_nd := List.nodup_append.1 (List.nodup_cons.1 hmid).2
  have hu_nd : u.Nodup := huv_nd.1
  have hv_nd : v.Nodup := huv_nd.2.1
  have huv : u.Disjoint v := huv_nd.2.2
  have s1 : seg h f u pos := (seg_append.1 hs).1
  have s2 : seg h pos v f := (seg_append.1 hs).2
  have hn : (h pos).next = some (v.headD f) := seg_head s2
  have hp : (h pos).prev = some (u.getLastD f) := seg_last s1
  have hnxmem : v.headD f ∈ f :: v := headD_mem_cons v f
  have hpwmem : u.getLastD f ∈ f :: u := List.getLastD_mem_cons u f
  have hnxpos : v.headD f ≠ pos := by
    rcases List.mem_cons.1 hnxmem with h1 | h1
    · rw [h1]; exact hf_pos
    · exact fun hq => hpos_v (hq ▸ h1)
  have hpw_pos : u.getLastD f ≠ pos := by
    rcases List.mem_cons.1 hpwmem with h2 | h2
    · rw [h2]; exact hf_pos
    · exact fun hq => hpos_u (hq ▸ h2)
  have hnfr := unlink_nf hn hp hnxpos
  have hnextF : ∀ n, ((unlink h pos) n).next =
      if n = pos then none
      else if n = u.getLastD f then some (v.headD f) else (h n).next := by
    intro n
    rw [hnfr]
    simp only [setPrev_next, setNext_next, setPrev_prev, setNext_prev]
  have hprevF : ∀ n, ((unlink h pos) n).prev =
      if n = pos then none
      else if n = v.headD f then some (u.getLastD f) else (h n).prev := by
    intro n
    rw [hnfr]
    simp only [setPrev_next, setNext_next, setPrev_prev, setNext_prev]
  have hdet : (unlink h pos) pos = ⟨none, none⟩ := by
    ext
    · rw [hnextF]; simp
    · rw [hprevF]; simp
  have hseg : seg (unlink h pos) f (u ++ v) f := by
    cases v with
    | nil =>
      simp only [List.headD_nil] at hnextF hprevF
      rw [List.append_nil]
      refine seg_retarget s1 (List.nodup_cons.2 ⟨hf_u, hu_nd⟩) ?_ ?_ ?_ ?_
      · rw [List.getLast_eq_getLastD, hnextF, if_neg hpw_pos, if_pos rfl]
      · rw [hprevF, if_neg hf_pos, if_pos rfl, hp]
      · intro n hn hne
        rw [List.getLast_eq_getLastD] at hne
        have h1 : n ≠ pos := by
          intro hq
          rcases List.mem_cons.1 hn with h2 | h2
          · exact hf_pos (h2 ▸ hq)
          · exact hpos_u (hq ▸ h2)
        rw [hnextF, if_neg h1, if_neg hne]
      · intro n hn
        have h1 : n ≠ pos := fun hq => hpos_u (hq ▸ hn)
        have h2 : n ≠ f := fun hq => hf_u (hq ▸ hn)
        rw [hprevF, if_neg h1, if_neg h2]
    | cons x v2 =>
      simp only [List.headD_cons] at hnextF hprevF
      have s2' : seg h x v2 f := s2.2.2
      refine seg_append.2 ⟨?_, ?_⟩
      · refine seg_retarget s1 (List.nodup_cons.2 ⟨hf_u, hu_nd⟩) ?_ ?_ ?_ ?_
        · rw [List.getLast_eq_getLastD, hnextF, if_neg hpw_pos, if_pos rfl]
        · have hx_pos : x ≠ pos := fun hq => hpos_v (hq ▸ List.mem_cons_self x v2)
          rw [hprevF, if_neg hx_pos, if_pos rfl, hp]
        · intro n hn hne
          rw [List.getLast_eq_getLastD] at hne
          have h1 : n ≠ pos := by
            intro hq
            rcases List.mem_cons.1 hn with h2 | h2
            · exact hf_pos (h2 ▸ hq)
            · exact hpos_u (hq ▸ h2)
          rw [hnextF, if_neg h1, if_neg hne]
        · intro n hn
          have h1 : n ≠ pos := fun hq => hpos_u (hq ▸ hn)
          have h2 : n ≠ x := fun hq => huv hn (by rw [hq]; exact List.mem_cons_self x v2)
          rw [hprevF, if_neg h1, if_neg h2]
      · refine seg_congr ?_ ?_ s2'
        · intro n hn
          have h1 : n ≠ pos := fun hq => hpos_v (hq ▸ hn)
          have h2 : n ≠ u.getLastD f := by
            rcases List.mem_cons.1 hpwmem with h3 | h3
            · intro hq; rw [hq, h3] at hn; exact hf_v hn
            · intro hq; exact huv (hq ▸ h3) hn
          rw [hnextF, if_neg h1, if_neg h2]
        · intro n hn
          rcases List.mem_append.1 hn with h1 | h1
          · have h2 : n ≠ pos := fun hq => hpos_v (hq ▸ List.mem_cons_of_mem _ h1)
            have h3 : n ≠ x := fun hq => (List.nodup_cons.1 hv_nd).1 (hq ▸ h1)
            rw [hprevF, if_neg h2, if_neg h3]
          · have hnf : n = f := by simpa using h1
            have h2 : n ≠ pos := by rw [hnf]; exact hf_pos
            have h3 : n ≠ x := by
              rw [hnf]; exact fun hq => hf_v (by rw [hq]; exact List.mem_cons_self x v2)
            rw [hprevF, if_neg h2, if_neg h3]
  exact ⟨hseg, hdet, hnextF, hprevF⟩

/-- `push_back` performs exactly the writes of `insert` at `end()`; the two
bodies are the same statement sequence with `pos = &fake`. -/
theorem push_back_eq_insert (h : Heap) (f e : Nat) :
    push_back h f e = (insert h f e).map Prod.fst := by
  unfold push_back insert
  cases hq : (h f).prev <;> simp [hq]

theorem push_back_ring {h : Heap} {f e : Nat} {xs : List Nat}
    (hs : seg h f xs f) (hnd : (f :: xs).Nodup) (he : e ∉ f :: xs) :
    ∃ h2, push_back h f e = some h2 ∧
      seg h2 f (xs ++ [e]) f ∧
      (∀ n, (h2 n).next =
        if n = xs.getLastD f then some e else if n = e then some f else (h n).next) ∧
      (∀ n, (h2 n).prev =
        if n = f then some e else if n = e then some (xs.getLastD f) else (h n).prev) := by
  have hs' : seg h f (xs ++ []) f := by rwa [List.append_nil]
  have hnd' : (f :: (xs ++ [])).Nodup := by rwa [List.append_nil]
  have he' : e ∉ f :: (xs ++ []) := by rwa [List.append_nil]
  obtain ⟨h2, hins, hseg, hnextF, hprevF⟩ := insert_ring hs' hnd' he'
  refine ⟨h2, ?_, hseg, fun n => hnextF n, fun n => hprevF n⟩
  rw [push_back_eq_insert, show insert h f e = some (h2, e) from hins]
  rfl

theorem push_front_ring {h : Heap} {f e : Nat} {xs : List Nat}
    (hs : seg h f xs f) (hnd : (f :: xs).Nodup) (he : e ∉ f :: xs) :
    ∃ h2, push_front h f e = some h2 ∧
      seg h2 f (e :: xs) f ∧
      (∀ n, (h2 n).next =
        if n = f then some e else if n = e then some (xs.headD f) else (h n).next) ∧
      (∀ n, (h2 n).prev =
        if n = xs.headD f then some e else if n = e then some f else (h n).prev) := by
  have hef : e ≠ f := fun hq => he (hq ▸ List.mem_cons_self _ _)
  have hx : (h f).next = some (xs.headD f) := seg_head hs
  have hnf := push_front_nf hx hef
  refine ⟨_, hnf, ?_, ?_, ?_⟩
  rotate_left
  · intro n
    simp only [setNext_next, setPrev_next]
  · intro n
    simp only [setNext_prev, setPrev_prev]
  have hnextF : ∀ n, ((setNext (setPrev (setNext (setPrev h e (some f)) e
      (some (xs.headD f))) (xs.headD f) (some e)) f (some e)) n).next =
      if n = f then some e else if n = e then some (xs.headD f) else (h n).next := by
    intro n
    simp only [setNext_next, setPrev_next]
  have hprevF : ∀ n, ((setNext (setPrev (setNext (setPrev h e (some f)) e
      (some (xs.headD f))) (xs.headD f) (some e)) f (some e)) n).prev =
      if n = xs.headD f then some e else if n = e then some f else (h n).prev := by
    intro n
    simp only [setNext_prev, setPrev_prev]
  have hfxs : f ∉ xs := (List.nodup_cons.1 hnd).1
  cases xs with
  | nil =>
    simp only [List.headD_nil] at hnextF hprevF ⊢
    refine ⟨?_, ?_, ?_⟩
    · rw [hnextF, if_pos rfl]
    · rw [hprevF, if_neg hef, if_pos rfl]
    · refine ⟨?_, ?_⟩
      · rw [hnextF, if_neg hef, if_pos rfl]
      · rw [hprevF, if_pos rfl]
  | cons y ys =>
    simp only [List.headD_cons] at hnextF hprevF ⊢
    have hey : e ≠ y := by
      intro hq
      exact he (by rw [hq]; exact List.mem_cons_of_mem _ (List.mem_cons_self y ys))
    have hyf : y ≠ f := fun hq => hfxs (hq ▸ List.mem_cons_self y ys)
    refine ⟨?_, ?_, ?_, ?_, ?_⟩
    · rw [hnextF, if_pos rfl]
    · rw [hprevF, if_neg hey, if_pos rfl]
    · rw [hnextF, if_neg hef, if_pos rfl]
    · rw [hprevF, if_pos rfl]
    · refine seg_congr ?_ ?_ hs.2.2
      · intro n hn
        have h1 : n ≠ f := by
          rcases List.mem_cons.1 hn with h2 | h2
          · rw [h2]; exact hyf
          · exact fun hq => hfxs (hq ▸ List.mem_cons_of_mem _ h2)
        have h2 : n ≠ e := by
          intro hq
          subst hq
          rcases List.mem_cons.1 hn with h3 | h3
          · exact hey h3
          · exact he (List.mem_cons_of_mem _ (List.mem_cons_of_mem _ h3))
        rw [hnextF, if_neg h1, if_neg h2]
      · intro n hn
        rcases List.mem_append.1 hn with h1 | h1
        · have h2 : n ≠ y := fun hq => (List.nodup_cons.1 (List.nodup_cons.1 hnd).2).1 (hq ▸ h1)
          have h3 : n ≠ e := fun hq =>
            he (hq ▸ List.mem_cons_of_mem _ (List.mem_cons_of_mem _ h1))
          rw [hprevF, if_neg h2, if_neg h3]
        · have hnf2 : n = f := by simpa using h1
          have h2 : n ≠ y := by rw [hnf2]; exact hyf.symm
          have h3 : n ≠ e := by rw [hnf2]; exact hef.symm
          rw [hprevF, if_neg h2, if_neg h3]

theorem ne_of_not_mem_cons {n m f : Nat} {xs : List Nat} (hm : m ∈ f :: xs)
    (h1 : n ≠ f) (h2 : n ∉ xs) : n ≠ m := by
  intro hq
  subst hq
  rcases List.mem_cons.1 hm with hq2 | hq2
  · exact h1 hq2
  · exact h2 hq2

/-- `swap` exchanges the chains of two disjoint rings; outside the two rings
the heap is unchanged. -/
theorem swap_ring {h : Heap} {f1 f2 : Nat} {xs1 xs2 : List Nat}
    (hs1 : seg h f1 xs1 f1) (hs2 : seg h f2 xs2 f2)
    (hnd1 : (f1 :: xs1).Nodup) (hnd2 : (f2 :: xs2).Nodup)
    (hdisj : ∀ n, n ∈ f1 :: xs1 → n ∉ f2 :: xs2) :
    ∃ h2, listSwap h f1 f2 = some h2 ∧
      seg h2 f1 xs2 f1 ∧ seg h2 f2 xs1 f2 ∧
      (∀ n, n ≠ f1 → n ≠ f2 → n ∉ xs1 → n ∉ xs2 → h2 n = h n) := by
  have hdisj2 : ∀ n, n ∈ f2 :: xs2 → n ∉ f1 :: xs1 := fun n hn hn1 => hdisj n hn1 hn
  have hf12 : f1 ≠ f2 := fun hq =>
    hdisj f1 (List.mem_cons_self _ _) (by rw [hq]; exact List.mem_cons_self _ _)
  have hf1xs1 : f1 ∉ xs1 := (List.nodup_cons.1 hnd1).1
  have hf2xs2 : f2 ∉ xs2 := (List.nodup_cons.1 hnd2).1
  have hf1xs2 : f1 ∉ xs2 := fun hq =>
    hdisj f1 (List.mem_cons_self _ _) (List.mem_cons_of_mem _ hq)
  have hf2xs1 : f2 ∉ xs1 := fun hq =>
    hdisj2 f2 (List.mem_cons_self _ _) (List.mem_cons_of_mem _ hq)
  have hmn : (h f1).next = some (xs1.headD f1) := seg_head hs1
  have hmp : (h f1).prev = some (xs1.getLastD f1) := seg_last hs1
  have hrn : (h f2).next = some (xs2.headD f2) := seg_head hs2
  have hrp : (h f2).prev = some (xs2.getLastD f2) := seg_last hs2
  have hmnr1 : xs1.headD f1 ∈ f1 :: xs1 := headD_mem_cons xs1 f1
  have hmpr1 : xs1.getLastD f1 ∈ f1 :: xs1 := List.getLastD_mem_cons xs1 f1
  have hrnr2 : xs2.headD f2 ∈ f2 :: xs2 := headD_mem_cons xs2 f2
  have hrpr2 : xs2.getLastD f2 ∈ f2 :: xs2 := List.getLastD_mem_cons xs2 f2
  have hb1 : f2 ≠ xs1.headD f1 := fun hq =>
    hdisj _ hmnr1 (by rw [← hq]; exact List.mem_cons_self _ _)
  have hb2 : f2 ≠ xs1.getLastD f1 := fun hq =>
    hdisj _ hmpr1 (by rw [← hq]; exact List.mem_cons_self _ _)
  have hnf := listSwap_nf hmn hmp hrn hrp hb1 hb2
  set H := setNext (setPrev (setNext (setPrev h (xs1.headD f1) (some f2))
    (xs1.getLastD f1) (some f2)) (xs2.headD f2) (some f1)) (xs2.getLastD f2) (some f1)
    with hHdef
  have hHnext : ∀ n, (H n).next =
      if n = xs2.getLastD f2 then some f1
      else if n = xs1.getLastD f1 then some f2 else (h n).next := by
    intro n
    simp only [hHdef, setNext_next, setPrev_next]
  have hHprev : ∀ n, (H n).prev =
      if n = xs2.headD f2 then some f1
      else if n = xs1.headD f1 then some f2 else (h n).prev := by
    intro n
    simp only [hHdef, setNext_prev, setPrev_prev]
  set h2F := (fun x => if x = f1 then H f2 else if x = f2 then H f1 else H x) with hh2
  have h2app : ∀ x, h2F x = if x = f1 then H f2 else if x = f2 then H f1 else H x :=
    fun x => rfl
  have h2next : ∀ n, (h2F n).next =
      if n = f1 then (H f2).next else if n = f2 then (H f1).next else (H n).next := by
    intro n
    rw [h2app n, apply_ite (fun r : list_element => r.next),
      apply_ite (fun r : list_element => r.next)]
  have h2prev : ∀ n, (h2F n).prev =
      if n = f1 then (H f2).prev else if n = f2 then (H f1).prev else (H n).prev := by
    intro n
    rw [h2app n, apply_ite (fun r : list_element => r.prev),
      apply_ite (fun r : list_element => r.prev)]
  refine ⟨h2F, hnf, ?_, ?_, ?_⟩
  · -- the f1 ring now carries xs2
    cases xs2 with
    | nil =>
      simp only [List.getLastD_nil, List.headD_nil] at hHnext hHprev
      refine ⟨?_, ?_⟩
      · rw [h2next, if_pos rfl, hHnext, if_pos rfl]
      · rw [h2prev, if_pos rfl, hHprev, if_pos rfl]
    | cons y ys =>
      simp only [List.getLastD_cons, List.headD_cons] at hHnext hHprev hrn hrp hrnr2 hrpr2
      have hymem : y ∈ y :: ys := List.mem_cons_self y ys
      have hrpmem : ys.getLastD y ∈ y :: ys := List.getLastD_mem_cons ys y
      have hyf2 : y ≠ f2 := fun hq => hf2xs2 (by rw [← hq]; exact hymem)
      have hyr1 : y ∉ f1 :: xs1 := hdisj2 y (List.mem_cons_of_mem _ hymem)
      have hyf1 : y ≠ f1 := fun hq => hyr1 (by rw [hq]; exact List.mem_cons_self _ _)
      refine ⟨?_, ?_, ?_⟩
      · have c1 : f2 ≠ ys.getLastD y := fun hq => hf2xs2 (by rw [hq]; exact hrpmem)
        rw [h2next, if_pos rfl, hHnext, if_neg c1, if_neg hb2, hrn]
      · rw [h2prev, if_neg hyf1, if_neg hyf2, hHprev, if_pos rfl]
      · refine seg_retarget hs2.2.2 (List.nodup_cons.1 hnd2).2 ?_ ?_ ?_ ?_
        · rw [List.getLast_eq_getLastD]
          have hglr1 : ys.getLastD y ∉ f1 :: xs1 := hdisj2 _ (List.mem_cons_of_mem _ hrpmem)
          have c1 : ys.getLastD y ≠ f1 := fun hq =>
            hglr1 (by rw [hq]; exact List.mem_cons_self _ _)
          have c2 : ys.getLastD y ≠ f2 := fun hq => hf2xs2 (by rw [← hq]; exact hrpmem)
          rw [h2next, if_neg c1, if_neg c2, hHnext, if_pos rfl]
        · rw [h2prev, if_pos rfl, hHprev, if_neg (Ne.symm hyf2), if_neg hb1]
        · intro n hn hne
          rw [List.getLast_eq_getLastD] at hne
          have hnr1 : n ∉ f1 :: xs1 := hdisj2 n (List.mem_cons_of_mem _ hn)
          have c1 : n ≠ f1 := fun hq => hnr1 (by rw [hq]; exact List.mem_cons_self _ _)
          have c2 : n ≠ f2 := fun hq => hf2xs2 (by rw [← hq]; exact hn)
          have c3 : n ≠ xs1.getLastD f1 :=
            ne_of_not_mem_cons hmpr1 c1 fun hq => hnr1 (List.mem_cons_of_mem _ hq)
          rw [h2next, if_neg c1, if_neg c2, hHnext, if_neg hne, if_neg c3]
        · intro n hn
          have hnmem : n ∈ y :: ys := List.mem_cons_of_mem _ hn
          have hnr1 : n ∉ f1 :: xs1 := hdisj2 n (List.mem_cons_of_mem _ hnmem)
          have c1 : n ≠ f1 := fun hq => hnr1 (by rw [hq]; exact List.mem_cons_self _ _)
          have c2 : n ≠ f2 := fun hq => hf2xs2 (by rw [← hq]; exact hnmem)
          have c3 : n ≠ y := fun hq => (List.nodup_cons.1 (List.nodup_cons.1 hnd2).2).1 (hq ▸ hn)
          have c4 : n ≠ xs1.headD f1 :=
            ne_of_not_mem_cons hmnr1 c1 fun hq => hnr1 (List.mem_cons_of_mem _ hq)
          rw [h2prev, if_neg c1, if_neg c2, hHprev, if_neg c3, if_neg c4]
  · -- the f2 ring now carries xs1
    cases xs1 with
    | nil =>
      simp only [List.getLastD_nil, List.headD_nil] at hHnext hHprev
      have c1 : f1 ≠ xs2.getLastD f2 := ne_of_not_mem_cons hrpr2 hf12 hf1xs2
      have c2 : f1 ≠ xs2.headD f2 := ne_of_not_mem_cons hrnr2 hf12 hf1xs2
      refine ⟨?_, ?_⟩
      · rw [h2next, if_neg (Ne.symm hf12), if_pos rfl, hHnext, if_neg c1, if_pos rfl]
      · rw [h2prev, if_neg (Ne.symm hf12), if_pos rfl, hHprev, if_neg c2, if_pos rfl]
    | cons x xs1t =>
      simp only [List.getLastD_cons, List.headD_cons] at hHnext hHprev hmn hmp hmnr1 hmpr1 hb1 hb2
      have hxmem : x ∈ x :: xs1t := List.mem_cons_self x xs1t
      have hmpmem : xs1t.getLastD x ∈ x :: xs1t := List.getLastD_mem_cons xs1t x
      have hxf1 : x ≠ f1 := fun hq => hf1xs1 (by rw [← hq]; exact hxmem)
      have hxr2 : x ∉ f2 :: xs2 := hdisj x (List.mem_cons_of_mem _ hxmem)
      have hxf2 : x ≠ f2 := fun hq => hxr2 (by rw [hq]; exact List.mem_cons_self _ _)
      have c0 : f1 ≠ xs2.getLastD f2 := ne_of_not_mem_cons hrpr2 hf12 hf1xs2
      have c0p : f1 ≠ xs2.headD f2 := ne_of_not_mem_cons hrnr2 hf12 hf1xs2
      refine ⟨?_, ?_, ?_⟩
      · have c1 : f1 ≠ xs1t.getLastD x := fun hq => hf1xs1 (by rw [hq]; exact hmpmem)
        rw [h2next, if_neg (Ne.symm hf12), if_pos rfl, hHnext, if_neg c0, if_neg c1, hmn]
      · have c1 : x ≠ xs2.headD f2 := ne_of_not_mem_cons hrnr2 hxf2
          fun hq => hxr2 (List.mem_cons_of_mem _ hq)
        rw [h2prev, if_neg hxf1, if_neg hxf2, hHprev, if_neg c1, if_pos rfl]
      · refine seg_retarget hs1.2.2 (List.nodup_cons.1 hnd1).2 ?_ ?_ ?_ ?_
        · rw [List.getLast_eq_getLastD]
          have hglr2 : xs1t.getLastD x ∉ f2 :: xs2 := hdisj _ (List.mem_cons_of_mem _ hmpmem)
          have c1 : xs1t.getLastD x ≠ f1 := fun hq => hf1xs1 (by rw [← hq]; exact hmpmem)
          have c2 : xs1t.getLastD x ≠ f2 := fun hq =>
            hglr2 (by rw [hq]; exact List.mem_cons_self _ _)
          have c3 : xs1t.getLastD x ≠ xs2.getLastD f2 := ne_of_not_mem_cons hrpr2 c2
            fun hq => hglr2 (List.mem_cons_of_mem _ hq)
          rw [h2next, if_neg c1, if_neg c2, hHnext, if_neg c3, if_pos rfl]
        · rw [h2prev, if_neg (Ne.symm hf12), if_pos rfl, hHprev, if_neg c0p,
            if_neg (Ne.symm hxf1)]
        · intro n hn hne
          rw [List.getLast_eq_getLastD] at hne
          have hnr2 : n ∉ f2 :: xs2 := hdisj n (List.mem_cons_of_mem _ hn)
          have c1 : n ≠ f1 := fun hq => hf1xs1 (by rw [← hq]; exact hn)
          have c2 : n ≠ f2 := fun hq => hnr2 (by rw [hq]; exact List.mem_cons_self _ _)
          have c3 : n ≠ xs2.getLastD f2 :=
            ne_of_not_mem_cons hrpr2 c2 fun hq => hnr2 (List.mem_cons_of_mem _ hq)
          rw [h2next, if_neg c1, if_neg c2, hHnext, if_neg c3, if_neg hne]
        · intro n hn
          have hnmem : n ∈ x :: xs1t := List.mem_cons_of_mem _ hn
          have hnr2 : n ∉ f2 :: xs2 := hdisj n (List.mem_cons_of_mem _ hnmem)
          have c1 : n ≠ f1 := fun hq => hf1xs1 (by rw [← hq]; exact hnmem)
          have c2 : n ≠ f2 := fun hq => hnr2 (by rw [hq]; exact List.mem_cons_self _ _)
          have c3 : n ≠ xs2.headD f2 :=
            ne_of_not_mem_cons hrnr2 c2 fun hq => hnr2 (List.mem_cons_of_mem _ hq)
          have c4 : n ≠ x := fun hq => (List.nodup_cons.1 (List.nodup_cons.1 hnd1).2).1 (hq ▸ hn)
          rw [h2prev, if_neg c1, if_neg c2, hHprev, if_neg c3, if_neg c4]
  · intro n hn1 hn2 hn3 hn4
    have c1 : n ≠ xs2.getLastD f2 := ne_of_not_mem_cons hrpr2 hn2 hn4
    have c2 : n ≠ xs1.getLastD f1 := ne_of_not_mem_cons hmpr1 hn1 hn3
    have c3 : n ≠ xs2.headD f2 := ne_of_not_mem_cons hrnr2 hn2 hn4
    have c4 : n ≠ xs1.headD f1 := ne_of_not_mem_cons hmnr1 hn1 hn3
    ext
    · rw [h2next, if_neg hn1, if_neg hn2, hHnext, if_neg c1, if_neg c2]
    · rw [h2prev, if_neg hn1, if_neg hn2, hHprev, if_neg c3, if_neg c4]

/-- `clear` empties a ring: every element ends detached, the sentinel is
self-linked, and no other node changes. -/
theorem clearFuel_ring {h : Heap} {f : Nat} {xs : List Nat}
    (hs : seg h f xs f) (hnd : (f :: xs).Nodup) :
    ∀ fuel, xs.length ≤ fuel →
    ∃ h2, clearFuel fuel h f = some h2 ∧
      h2 f = ⟨some f, some f⟩ ∧
      (∀ n ∈ xs, h2 n = ⟨none, none⟩) ∧
      (∀ n, n ≠ f → n ∉ xs → h2 n = h n) := by
  induction xs generalizing h with
  | nil =>
    intro fuel _
    have hrec : h f = ⟨some f, some f⟩ := by
      ext
      · rw [hs.1]
      · rw [hs.2]
    refine ⟨h, ?_, hrec, by simp, fun n _ _ => rfl⟩
    cases fuel with
    | zero => simp [clearFuel, hs.1]
    | succ fuel => simp [clearFuel, hs.1]
  | cons x rest ih =>
    intro fuel hfuel
    cases fuel with
    | zero => simp at hfuel
    | succ fuel =>
      have hf1 : f ∉ x :: rest := (List.nodup_cons.1 hnd).1
      have hxf : x ≠ f := fun hq => hf1 (by rw [← hq]; exact List.mem_cons_self _ _)
      have hs' : seg h f ([] ++ x :: rest) f := hs
      have hnd' : (f :: ([] ++ x :: rest)).Nodup := hnd
      obtain ⟨hseg1, hdet1, hnext1, hprev1⟩ := unlink_ring hs' hnd'
      simp only [List.getLastD_nil] at hnext1 hprev1
      have hstep : clearFuel (fuel + 1) h f = clearFuel fuel (unlink h x) f := by
        have hcond : (h f).next = some x := hs.1
        simp [clearFuel, hcond, hxf]
      have hnd2 : (f :: rest).Nodup := by
        rcases List.nodup_cons.1 hnd with ⟨hfm, ht⟩
        exact List.nodup_cons.2
          ⟨fun hq => hfm (List.mem_cons_of_mem _ hq), (List.nodup_cons.1 ht).2⟩
      have hseg1' : seg (unlink h x) f rest f := hseg1
      obtain ⟨h2, hrun, hf2, hels, hfr⟩ := ih hseg1' hnd2 fuel (Nat.succ_le_succ_iff.1 hfuel)
      refine ⟨h2, by rw [hstep]; exact hrun, hf2, ?_, ?_⟩
      · intro n hn
        rcases List.mem_cons.1 hn with rfl | hn2
        · have hx_rest : n ∉ rest := (List.nodup_cons.1 (List.nodup_cons.1 hnd).2).1
          have hx_f : n ≠ f := hxf
          rw [hfr n hx_f hx_rest, hdet1]
        · exact hels n hn2
      · intro n hnf hnxs
        have h1 : n ∉ rest := fun hq => hnxs (List.mem_cons_of_mem _ hq)
        have h2q : n ≠ x := fun hq => hnxs (by rw [hq]; exact List.mem_cons_self _ _)
        rw [hfr n hnf h1]
        ext
        · rw [hnext1, if_neg h2q, if_neg hnf]
        · rw [hprev1, if_neg h2q,
            if_neg (ne_of_not_mem_cons (headD_mem_cons rest f) hnf h1)]

theorem seg_getLast_next {h : Heap} {a b : Nat} {xs : List Nat} (hs : seg h a xs b) :
    (h (xs.getLastD a)).next = some b := by
  induction xs generalizing a with
  | nil => exact hs.1
  | cons x xs ih =>
    rw [List.getLastD_cons]
    exact ih hs.2.2

/-- `splice` moves the range `mid` (sitting between `u2` and `v2` in the
`f2` ring) to just before the position at the head of `v1` in the `f1`
ring.  For an empty range it is a no-op.  Outside the two rings nothing
changes. -/
theorem splice_ring {h : Heap} {f1 f2 : Nat} {u1 v1 u2 mid v2 : List Nat}
    (hs1 : seg h f1 (u1 ++ v1) f1) (hs2 : seg h f2 (u2 ++ (mid ++ v2)) f2)
    (hnd1 : (f1 :: (u1 ++ v1)).Nodup) (hnd2 : (f2 :: (u2 ++ (mid ++ v2))).Nodup)
    (hdisj : ∀ n, n ∈ f1 :: (u1 ++ v1) → n ∉ f2 :: (u2 ++ (mid ++ v2))) :
    ∃ h2, splice h (v1.headD f1) ((mid ++ v2).headD f2) (v2.headD f2) = some h2 ∧
      seg h2 f1 (u1 ++ (mid ++ v1)) f1 ∧
      seg h2 f2 (u2 ++ v2) f2 ∧
      (∀ n, n ≠ f1 → n ≠ f2 → n ∉ u1 ++ v1 → n ∉ u2 ++ (mid ++ v2) → h2 n = h n) ∧
      (mid = [] → h2 = h) := by
  cases mid with
  | nil =>
    refine ⟨h, ?_, hs1, hs2, fun n _ _ _ _ => rfl, fun _ => rfl⟩
    show splice h (v1.headD f1) (v2.headD f2) (v2.headD f2) = some h
    simp [splice]
  | cons m1 midt =>
    obtain ⟨hf1u1, hf1v1, hu1nd, hv1nd, hu1v1⟩ := ring_nodup_parts hnd1
    obtain ⟨hf2u2, hf2mv, hu2nd, hmvnd, hu2mv⟩ := ring_nodup_parts hnd2
    obtain ⟨hmnd, hv2nd, hmv2⟩ := List.nodup_append.1 hmvnd
    have hf2m : f2 ∉ m1 :: midt := fun hq => hf2mv (List.mem_append_left _ hq)
    have hf2v2 : f2 ∉ v2 := fun hq => hf2mv (List.mem_append_right _ hq)
    have cross : ∀ {a b : Nat}, a ∈ f1 :: (u1 ++ v1) →
        b ∈ f2 :: (u2 ++ ((m1 :: midt) ++ v2)) → a ≠ b :=
      fun ha hb hq => hdisj _ ha (by rw [hq]; exact hb)
    have lift1u : ∀ {n : Nat}, n ∈ f1 :: u1 → n ∈ f1 :: (u1 ++ v1) := by
      intro n hn
      rcases List.mem_cons.1 hn with h1 | h1
      · rw [h1]; exact List.mem_cons_self _ _
      · exact List.mem_cons_of_mem _ (List.mem_append_left _ h1)
    have lift1v : ∀ {n : Nat}, n ∈ f1 :: v1 → n ∈ f1 :: (u1 ++ v1) := by
      intro n hn
      rcases List.mem_cons.1 hn with h1 | h1
      · rw [h1]; exact List.mem_cons_self _ _
      · exact List.mem_cons_of_mem _ (List.mem_append_right _ h1)
    have lift2u : ∀ {n : Nat}, n ∈ f2 :: u2 → n ∈ f2 :: (u2 ++ ((m1 :: midt) ++ v2)) := by
      intro n hn
      rcases List.mem_cons.1 hn with h1 | h1
      · rw [h1]; exact List.mem_cons_self _ _
      · exact List.mem_cons_of_mem _ (List.mem_append_left _ h1)
    have lift2m : ∀ {n : Nat}, n ∈ m1 :: midt → n ∈ f2 :: (u2 ++ ((m1 :: midt) ++ v2)) :=
      fun hn => List.mem_cons_of_mem _
        (List.mem_append_right _ (List.mem_append_left _ hn))
    have lift2v : ∀ {n : Nat}, n ∈ f2 :: v2 → n ∈ f2 :: (u2 ++ ((m1 :: midt) ++ v2)) := by
      intro n hn
      rcases List.mem_cons.1 hn with h1 | h1
      · rw [h1]; exact List.mem_cons_self _ _
      · exact List.mem_cons_of_mem _
          (List.mem_append_right _ (List.mem_append_right _ h1))
    have posM : v1.headD f1 ∈ f1 :: v1 := headD_mem_cons v1 f1
    have tlM : u1.getLastD f1 ∈ f1 :: u1 := List.getLastD_mem_cons u1 f1
    have frM : midt.getLastD m1 ∈ m1 :: midt := List.getLastD_mem_cons midt m1
    have w1M : u2.getLastD f2 ∈ f2 :: u2 := List.getLastD_mem_cons u2 f2
    have lastM : v2.headD f2 ∈ f2 :: v2 := headD_mem_cons v2 f2
    have m1M : m1 ∈ m1 :: midt := List.mem_cons_self _ _
    have s21 : seg h f2 u2 m1 := (seg_append.1 hs2).1
    have s22 : seg h m1 (midt ++ v2) f2 := (seg_append.1 hs2).2
    have hw1 : (h m1).prev = some (u2.getLastD f2) := seg_last s21
    have s_mid : seg h m1 midt (v2.headD f2) := by
      cases v2 with
      | nil =>
        rw [List.append_nil] at s22
        exact s22
      | cons p2 v2t => exact (seg_append.1 s22).1
    have hfr : (h (v2.headD f2)).prev = some (midt.getLastD m1) := seg_last s_mid
    have hw2 : (h (midt.getLastD m1)).next = some (v2.headD f2) := seg_getLast_next s_mid
    have s11 : seg h f1 u1 (v1.headD f1) := by
      cases v1 with
      | nil =>
        rw [List.append_nil] at hs1
        exact hs1
      | cons q v1t => exact (seg_append.1 hs1).1
    have htl : (h (v1.headD f1)).prev = some (u1.getLastD f1) := seg_last s11
    have hm1f2 : m1 ≠ f2 := fun hq => hf2m (by rw [← hq]; exact m1M)
    have hm1v2 : m1 ∉ v2 := fun hq => hmv2 m1M hq
    have hfl : m1 ≠ v2.headD f2 := ne_of_not_mem_cons lastM hm1f2 hm1v2
    have hfp : m1 ≠ v1.headD f1 := Ne.symm (cross (lift1v posM) (lift2m m1M))
    have hft : midt.getLastD m1 ≠ u1.getLastD f1 :=
      Ne.symm (cross (lift1u tlM) (lift2m frM))
    have hnfr := splice_nf hfl htl hfr hw1 hw2 hfp hft
    set H := setNext (setPrev (setPrev (setNext (setPrev (setNext h (u1.getLastD f1)
      (some m1)) (v1.headD f1) (some (midt.getLastD m1))) (u2.getLastD f2)
      (some (v2.headD f2))) (v2.headD f2) (some (u2.getLastD f2))) m1
      (some (u1.getLastD f1))) (midt.getLastD m1) (some (v1.headD f1)) with hHdef
    have hnextF : ∀ n, (H n).next =
        if n = midt.getLastD m1 then some (v1.headD f1)
        else if n = u2.getLastD f2 then some (v2.headD f2)
        else if n = u1.getLastD f1 then some m1 else (h n).next := by
      intro n
      simp only [hHdef, setNext_next, setPrev_next]
    have hprevF : ∀ n, (H n).prev =
        if n = m1 then some (u1.getLastD f1)
        else if n = v2.headD f2 then some (u2.getLastD f2)
        else if n = v1.headD f1 then some (midt.getLastD m1) else (h n).prev := by
      intro n
      simp only [hHdef, setNext_prev, setPrev_prev]
    refine ⟨H, hnfr, ?_, ?_, ?_, fun hq => absurd hq (List.cons_ne_nil m1 midt)⟩
    · -- this ring gains the moved range just before the position
      refine seg_append.2 ⟨?_, ?_⟩
      · -- the part before the range
        refine seg_retarget s11 (List.nodup_cons.2 ⟨hf1u1, hu1nd⟩) ?_ ?_ ?_ ?_
        · rw [List.getLast_eq_getLastD]
          have c1 : u1.getLastD f1 ≠ midt.getLastD m1 := cross (lift1u tlM) (lift2m frM)
          have c2 : u1.getLastD f1 ≠ u2.getLastD f2 := cross (lift1u tlM) (lift2u w1M)
          rw [hnextF, if_neg c1, if_neg c2, if_pos rfl]
        · rw [hprevF, if_pos rfl, htl]
        · intro n hn hne
          rw [List.getLast_eq_getLastD] at hne
          have c1 : n ≠ midt.getLastD m1 := cross (lift1u hn) (lift2m frM)
          have c2 : n ≠ u2.getLastD f2 := cross (lift1u hn) (lift2u w1M)
          rw [hnextF, if_neg c1, if_neg c2, if_neg hne]
        · intro n hn
          have c1 : n ≠ m1 := cross (lift1u (List.mem_cons_of_mem _ hn)) (lift2m m1M)
          have c2 : n ≠ v2.headD f2 :=
            cross (lift1u (List.mem_cons_of_mem _ hn)) (lift2v lastM)
          have c3 : n ≠ v1.headD f1 := by
            rcases List.mem_cons.1 posM with h1 | h1
            · rw [h1]; exact fun hq => hf1u1 (by rw [← hq]; exact hn)
            · exact fun hq => hu1v1 hn (by rw [hq]; exact h1)
          rw [hprevF, if_neg c1, if_neg c2, if_neg c3]
      · -- the moved range followed by the old tail of this ring
        cases v1 with
        | nil =>
          simp only [List.headD_nil] at hnextF hprevF
          simp only [List.append_eq, List.append_nil]
          refine seg_retarget s_mid hmnd ?_ ?_ ?_ ?_
          · rw [List.getLast_eq_getLastD, hnextF, if_pos rfl]
          · have c1 : f1 ≠ m1 := cross (List.mem_cons_self _ _) (lift2m m1M)
            have c2 : f1 ≠ v2.headD f2 := cross (List.mem_cons_self _ _) (lift2v lastM)
            rw [hprevF, if_neg c1, if_neg c2, if_pos rfl, hfr]
          · intro n hn hne
            rw [List.getLast_eq_getLastD] at hne
            have c2 : n ≠ u2.getLastD f2 := by
              refine ne_of_not_mem_cons w1M ?_ ?_
              · exact fun hq => hf2m (by rw [← hq]; exact hn)
              · exact fun hq => hu2mv hq (List.mem_append_left _ hn)
            have c3 : n ≠ u1.getLastD f1 := Ne.symm (cross (lift1u tlM) (lift2m hn))
            rw [hnextF, if_neg hne, if_neg c2, if_neg c3]
          · intro n hn
            have c1 : n ≠ m1 := fun hq => (List.nodup_cons.1 hmnd).1 (hq ▸ hn)
            have c2 : n ≠ v2.headD f2 := by
              refine ne_of_not_mem_cons lastM ?_ ?_
              · exact fun hq => hf2m (by rw [← hq]; exact List.mem_cons_of_mem _ hn)
              · exact fun hq => hmv2 (List.mem_cons_of_mem _ hn) hq
            have c3 : n ≠ f1 :=
              Ne.symm (cross (List.mem_cons_self _ _) (lift2m (List.mem_cons_of_mem _ hn)))
            rw [hprevF, if_neg c1, if_neg c2, if_neg c3]
        | cons q v1t =>
          simp only [List.headD_cons] at hnextF hprevF htl hfp posM
          have s12 : seg h q v1t f1 := (seg_append.1 hs1).2
          refine seg_append.2 ⟨?_, ?_⟩
          · refine seg_retarget s_mid hmnd ?_ ?_ ?_ ?_
            · rw [List.getLast_eq_getLastD, hnextF, if_pos rfl]
            · have c1 : q ≠ m1 := Ne.symm hfp
              have c2 : q ≠ v2.headD f2 :=
                cross (lift1v (List.mem_cons_of_mem _ (List.mem_cons_self _ _))) (lift2v lastM)
              rw [hprevF, if_neg c1, if_neg c2, if_pos rfl, hfr]
            · intro n hn hne
              rw [List.getLast_eq_getLastD] at hne
              have c2 : n ≠ u2.getLastD f2 := by
                refine ne_of_not_mem_cons w1M ?_ ?_
                · exact fun hq => hf2m (by rw [← hq]; exact hn)
                · exact fun hq => hu2mv hq (List.mem_append_left _ hn)
              have c3 : n ≠ u1.getLastD f1 := Ne.symm (cross (lift1u tlM) (lift2m hn))
              rw [hnextF, if_neg hne, if_neg c2, if_neg c3]
            · intro n hn
              have c1 : n ≠ m1 := fun hq => (List.nodup_cons.1 hmnd).1 (hq ▸ hn)
              have c2 : n ≠ v2.headD f2 := by
                refine ne_of_not_mem_cons lastM ?_ ?_
                · exact fun hq => hf2m (by rw [← hq]; exact List.mem_cons_of_mem _ hn)
                · exact fun hq => hmv2 (List.mem_cons_of_mem _ hn) hq
              have c3 : n ≠ q :=
                Ne.symm (cross (lift1v (List.mem_cons_of_mem _ (List.mem_cons_self _ _)))
                  (lift2m (List.mem_cons_of_mem _ hn)))
              rw [hprevF, if_neg c1, if_neg c2, if_neg c3]
          · refine seg_congr ?_ ?_ s12
            · intro n hn
              have c1 : n ≠ midt.getLastD m1 :=
                cross (lift1v (List.mem_cons_of_mem _ hn)) (lift2m frM)
              have c2 : n ≠ u2.getLastD f2 :=
                cross (lift1v (List.mem_cons_of_mem _ hn)) (lift2u w1M)
              have c3 : n ≠ u1.getLastD f1 := by
                rcases List.mem_cons.1 tlM with h1 | h1
                · rw [h1]; exact fun hq => hf1v1 (by rw [← hq]; exact hn)
                · exact fun hq => hu1v1 h1 (by rw [← hq]; exact hn)
              rw [hnextF, if_neg c1, if_neg c2, if_neg c3]
            · intro n hn
              rcases List.mem_append.1 hn with h1 | h1
              · have hnv1 : n ∈ q :: v1t := List.mem_cons_of_mem _ h1
                have c1 : n ≠ m1 := cross (lift1v (List.mem_cons_of_mem _ hnv1)) (lift2m m1M)
                have c2 : n ≠ v2.headD f2 :=
                  cross (lift1v (List.mem_cons_of_mem _ hnv1)) (lift2v lastM)
                have c3 : n ≠ q := fun hq => (List.nodup_cons.1 hv1nd).1 (hq ▸ h1)
                rw [hprevF, if_neg c1, if_neg c2, if_neg c3]
              · have hnf : n = f1 := by simpa using h1
                have c1 : n ≠ m1 := by
                  rw [hnf]; exact cross (List.mem_cons_self _ _) (lift2m m1M)
                have c2 : n ≠ v2.headD f2 := by
                  rw [hnf]; exact cross (List.mem_cons_self _ _) (lift2v lastM)
                have c3 : n ≠ q := by
                  rw [hnf]
                  exact fun hq => hf1v1 (by rw [hq]; exact List.mem_cons_self _ _)
                rw [hprevF, if_neg c1, if_neg c2, if_neg c3]
    · -- the other ring loses the moved range
      cases v2 with
      | nil =>
        simp only [List.headD_nil] at hnextF hprevF hfr hw2 lastM
        rw [List.append_nil]
        refine seg_retarget s21 (List.nodup_cons.2 ⟨hf2u2, hu2nd⟩) ?_ ?_ ?_ ?_
        · rw [List.getLast_eq_getLastD]
          have c1 : u2.getLastD f2 ≠ midt.getLastD m1 := by
            rcases List.mem_cons.1 w1M with h1 | h1
            · rw [h1]; exact fun hq => hf2m (by rw [hq]; exact frM)
            · exact fun hq => hu2mv h1 (List.mem_append_left _ (by rw [hq]; exact frM))
          rw [hnextF, if_neg c1, if_pos rfl]
        · rw [hprevF, if_neg (Ne.symm hm1f2), if_pos rfl, hw1]
        · intro n hn hne
          rw [List.getLast_eq_getLastD] at hne
          have c1 : n ≠ midt.getLastD m1 := by
            rcases List.mem_cons.1 hn with h1 | h1
            · rw [h1]; exact fun hq => hf2m (by rw [hq]; exact frM)
            · exact fun hq => hu2mv h1 (List.mem_append_left _ (by rw [hq]; exact frM))
          have c3 : n ≠ u1.getLastD f1 := Ne.symm (cross (lift1u tlM) (lift2u hn))
          rw [hnextF, if_neg c1, if_neg hne, if_neg c3]
        · intro n hn
          have c1 : n ≠ m1 :=
            fun hq => hu2mv hn (by rw [hq]; exact List.mem_append_left _ m1M)
          have c2 : n ≠ f2 := fun hq => hf2u2 (by rw [← hq]; exact hn)
          have c3 : n ≠ v1.headD f1 :=
            Ne.symm (cross (lift1v posM) (lift2u (List.mem_cons_of_mem _ hn)))
          rw [hprevF, if_neg c1, if_neg c2, if_neg c3]
      | cons p2 v2t =>
        simp only [List.headD_cons] at hnextF hprevF hfr hw2 lastM
        have s22b : seg h p2 v2t f2 := (seg_append.1 s22).2
        refine seg_append.2 ⟨?_, ?_⟩
        · refine seg_retarget s21 (List.nodup_cons.2 ⟨hf2u2, hu2nd⟩) ?_ ?_ ?_ ?_
          · rw [List.getLast_eq_getLastD]
            have c1 : u2.getLastD f2 ≠ midt.getLastD m1 := by
              rcases List.mem_cons.1 w1M with h1 | h1
              · rw [h1]; exact fun hq => hf2m (by rw [hq]; exact frM)
              · exact fun hq => hu2mv h1 (List.mem_append_left _ (by rw [hq]; exact frM))
            rw [hnextF, if_neg c1, if_pos rfl]
          · have c1 : p2 ≠ m1 :=
              fun hq => hmv2 m1M (by rw [← hq]; exact List.mem_cons_self p2 v2t)
            rw [hprevF, if_neg c1, if_pos rfl, hw1]
          · intro n hn hne
            rw [List.getLast_eq_getLastD] at hne
            have c1 : n ≠ midt.getLastD m1 := by
              rcases List.mem_cons.1 hn with h1 | h1
              · rw [h1]; exact fun hq => hf2m (by rw [hq]; exact frM)
              · exact fun hq => hu2mv h1 (List.mem_append_left _ (by rw [hq]; exact frM))
            have c3 : n ≠ u1.getLastD f1 := Ne.symm (cross (lift1u tlM) (lift2u hn))
            rw [hnextF, if_neg c1, if_neg hne, if_neg c3]
          · intro n hn
            have c1 : n ≠ m1 :=
              fun hq => hu2mv hn (by rw [hq]; exact List.mem_append_left _ m1M)
            have c2 : n ≠ p2 := fun hq =>
              hu2mv hn (by rw [hq]; exact List.mem_append_right _ (List.mem_cons_self _ _))
            have c3 : n ≠ v1.headD f1 :=
              Ne.symm (cross (lift1v posM) (lift2u (List.mem_cons_of_mem _ hn)))
            rw [hprevF, if_neg c1, if_neg c2, if_neg c3]
        · refine seg_congr ?_ ?_ s22b
          · intro n hn
            have hnv2 : n ∈ p2 :: v2t := hn
            have c1 : n ≠ midt.getLastD m1 := fun hq => hmv2 frM (by rw [← hq]; exact hnv2)
            have c2 : n ≠ u2.getLastD f2 := by
              refine ne_of_not_mem_cons w1M ?_ ?_
              · exact fun hq => hf2v2 (by rw [← hq]; exact hnv2)
              · exact fun hq => hu2mv hq (List.mem_append_right _ hnv2)
            have c3 : n ≠ u1.getLastD f1 :=
              Ne.symm (cross (lift1u tlM) (lift2v (List.mem_cons_of_mem _ hnv2)))
            rw [hnextF, if_neg c1, if_neg c2, if_neg c3]
          · intro n hn
            rcases List.mem_append.1 hn with h1 | h1
            · have hnv2 : n ∈ p2 :: v2t := List.mem_cons_of_mem _ h1
              have c1 : n ≠ m1 := fun hq => hmv2 m1M (by rw [← hq]; exact hnv2)
              have c2 : n ≠ p2 := fun hq => (List.nodup_cons.1 hv2nd).1 (hq ▸ h1)
              have c3 : n ≠ v1.headD f1 :=
                Ne.symm (cross (lift1v posM) (lift2v (List.mem_cons_of_mem _ hnv2)))
              rw [hprevF, if_neg c1, if_neg c2, if_neg c3]
            · have hnf : n = f2 := by simpa using h1
              have c1 : n ≠ m1 := by rw [hnf]; exact Ne.symm hm1f2
              have c2 : n ≠ p2 := by
                rw [hnf]
                exact fun hq => hf2v2 (by rw [hq]; exact List.mem_cons_self _ _)
              have c3 : n ≠ v1.headD f1 := by
                rw [hnf]
                exact Ne.symm (cross (lift1v posM) (List.mem_cons_self _ _))
              rw [hprevF, if_neg c1, if_neg c2, if_neg c3]
    · -- frame: nothing outside the two rings changes
      intro n hn1 hn2 hu1v1n hn4
      have hnu1 : n ∉ u1 := fun hq => hu1v1n (List.mem_append_left _ hq)
      have hnv1 : n ∉ v1 := fun hq => hu1v1n (List.mem_append_right _ hq)
      have hnu2 : n ∉ u2 := fun hq => hn4 (List.mem_append_left _ hq)
      have hnm : n ∉ m1 :: midt := fun hq =>
        hn4 (List.mem_append_right _ (List.mem_append_left _ hq))
      have hnv2 : n ∉ v2 := fun hq =>
        hn4 (List.mem_append_right _ (List.mem_append_right _ hq))
      have cfr : n ≠ midt.getLastD m1 := fun hq => hnm (by rw [hq]; exact frM)
      have cw1 : n ≠ u2.getLastD f2 := ne_of_not_mem_cons w1M hn2 hnu2
      have ctl : n ≠ u1.getLastD f1 := ne_of_not_mem_cons tlM hn1 hnu1
      have cm1 : n ≠ m1 := fun hq => hnm (by rw [hq]; exact m1M)
      have clast : n ≠ v2.headD f2 := ne_of_not_mem_cons lastM hn2 hnv2
      have cpos : n ≠ v1.headD f1 := ne_of_not_mem_cons posM hn1 hnv1
      ext
      · rw [hnextF, if_neg cfr, if_neg cw1, if_neg ctl]
      · rw [hprevF, if_neg cm1, if_neg clast, if_neg cpos]

/-- `pop_back` on a non-empty ring drops and detaches the last element. -/
theorem pop_back_ring {h : Heap} {f : Nat} {xs : List Nat}
    (hs : seg h f xs f) (hnd : (f :: xs).Nodup) (hne : xs ≠ []) :
    ∃ h2, pop_back h f = some h2 ∧
      seg h2 f xs.dropLast f ∧
      h2 (xs.getLastD f) = ⟨none, none⟩ ∧
      (∀ n, n ∉ f :: xs → h2 n = h n) := by
  rcases List.eq_nil_or_concat xs with rfl | ⟨u, lst, rfl⟩
  · exact absurd rfl hne
  rw [List.concat_eq_append] at *
  have hs' : seg h f (u ++ lst :: []) f := hs
  have hnd' : (f :: (u ++ lst :: [])).Nodup := hnd
  obtain ⟨hseg2, hdet2, hnext2, hprev2⟩ := unlink_ring hs' hnd'
  simp only [List.headD_nil] at hnext2 hprev2
  have hp : (h f).prev = some lst := by
    have := seg_last hs
    rwa [List.getLastD_concat] at this
  refine ⟨unlink h lst, pop_back_nf hp, ?_, ?_, ?_⟩
  · rw [List.dropLast_concat]
    rw [List.append_nil] at hseg2
    exact hseg2
  · rw [List.getLastD_concat]
    exact hdet2
  · intro n hn
    have hnf : n ≠ f := fun hq => hn (hq ▸ List.mem_cons_self _ _)
    have hnu : n ∉ u := fun hq =>
      hn (List.mem_cons_of_mem _ (List.mem_append_left _ hq))
    have hnl : n ≠ lst := fun hq =>
      hn (List.mem_cons_of_mem _ (List.mem_append_right _ (by rw [hq]; exact List.mem_cons_self _ _)))
    have c1 : n ≠ u.getLastD f := ne_of_not_mem_cons (List.getLastD_mem_cons u f) hnf hnu
    ext
    · rw [hnext2, if_neg hnl, if_neg c1]
    · rw [hprev2, if_neg hnl, if_neg hnf]

/-- `pop_front` on a non-empty ring drops and detaches the first element. -/
theorem pop_front_ring {h : Heap} {f : Nat} {xs : List Nat}
    (hs : seg h f xs f) (hnd : (f :: xs).Nodup) (hne : xs ≠ []) :
    ∃ h2, pop_front h f = some h2 ∧
      seg h2 f xs.tail f ∧
      h2 (xs.headD f) = ⟨none, none⟩ ∧
      (∀ n, n ∉ f :: xs → h2 n = h n) := by
  cases xs with
  | nil => exact absurd rfl hne
  | cons x rest =>
    have hs' : seg h f ([] ++ x :: rest) f := hs
    have hnd' : (f :: ([] ++ x :: rest)).Nodup := hnd
    obtain ⟨hseg2, hdet2, hnext2, hprev2⟩ := unlink_ring hs' hnd'
    simp only [List.getLastD_nil] at hnext2 hprev2
    refine ⟨unlink h x, pop_front_nf hs.1, hseg2, hdet2, ?_⟩
    intro n hn
    have hnf : n ≠ f := fun hq => hn (hq ▸ List.mem_cons_self _ _)
    have hnx : n ≠ x := fun hq =>
      hn (List.mem_cons_of_mem _ (by rw [hq]; exact List.mem_cons_self _ _))
    have hnr : n ∉ rest := fun hq =>
      hn (List.mem_cons_of_mem _ (List.mem_cons_of_mem _ hq))
    have c1 : n ≠ rest.headD f := ne_of_not_mem_cons (headD_mem_cons rest f) hnf hnr
    ext
    · rw [hnext2, if_neg hnx, if_neg hnf]
    · rw [hprev2, if_neg hnx, if_neg c1]

/-! ## Operation sequences over a family of list objects

`GState` carries the heap together with, for each live list object, its
sentinel address and (ghost) element sequence.  `applyOp` runs one
operation of the container on the heap, after checking the operation's
documented precondition against the ghost data; `none` means a violated
precondition (or a faulted pointer read). -/

structure GState where
  heap : Heap
  lists : List (Nat × List Nat)

/-- The addresses owned by one list object: its sentinel and its elements. -/
def ring (en : Nat × List Nat) : List Nat := en.1 :: en.2

/-- A node is detached when both of its pointers are null. -/
def detached (h : Heap) (e : Nat) : Prop :=
  (h e).next = none ∧ (h e).prev = none

instance (h : Heap) (e : Nat) : Decidable (detached h e) := by
  unfold detached
  infer_instance

inductive Op where
  | pushBack (li e : Nat)
  | pushFront (li e : Nat)
  | popBack (li : Nat)
  | popFront (li : Nat)
  | insertAt (li i e : Nat)
  | eraseAt (li i : Nat)
  | spliceOp (li1 i li2 j k : Nat)
  | swapOp (li1 li2 : Nat)
  | clearOp (li : Nat)
  | moveCtorOp (li g : Nat)
  | moveAssignOp (li1 li2 : Nat)

def applyOp (s : GState) : Op → Option GState
  | .pushBack li e => do
    let (f, xs) ← s.lists[li]?
    if detached s.heap e then
      let h2 ← push_back s.heap f e
      some ⟨h2, s.lists.set li (f, xs ++ [e])⟩
    else none
  | .pushFront li e => do
    let (f, xs) ← s.lists[li]?
    if detached s.heap e then
      let h2 ← push_front s.heap f e
      some ⟨h2, s.lists.set li (f, e :: xs)⟩
    else none
  | .popBack li => do
    let (f, xs) ← s.lists[li]?
    if xs ≠ [] then
      let h2 ← pop_back s.heap f
      some ⟨h2, s.lists.set li (f, xs.dropLast)⟩
    else none
  | .popFront li => do
    let (f, xs) ← s.lists[li]?
    if xs ≠ [] then
      let h2 ← pop_front s.heap f
      some ⟨h2, s.lists.set li (f, xs.tail)⟩
    else none
  | .insertAt li i e => do
    let (f, xs) ← s.lists[li]?
    if i ≤ xs.length ∧ detached s.heap e then
      let r ← insert s.heap ((xs.drop i).headD f) e
      some ⟨r.1, s.lists.set li (f, xs.take i ++ e :: xs.drop i)⟩
    else none
  | .eraseAt li i => do
    let (f, xs) ← s.lists[li]?
    if i < xs.length then
      some ⟨(erase s.heap ((xs.drop i).headD f)).1,
        s.lists.set li (f, xs.take i ++ (xs.drop i).tail)⟩
    else none
  | .spliceOp li1 i li2 j k => do
    let (f1, xs1) ← s.lists[li1]?
    let (f2, xs2) ← s.lists[li2]?
    if li1 ≠ li2 ∧ i ≤ xs1.length ∧ j ≤ k ∧ k ≤ xs2.length then
      let h2 ← splice s.heap ((xs1.drop i).headD f1) ((xs2.drop j).headD f2)
        ((xs2.drop k).headD f2)
      some ⟨h2, (s.lists.set li1
          (f1, xs1.take i ++ ((xs2.drop j).take (k - j) ++ xs1.drop i))).set li2
          (f2, xs2.take j ++ xs2.drop k)⟩
    else none
  | .swapOp li1 li2 => do
    let (f1, xs1) ← s.lists[li1]?
    let (f2, xs2) ← s.lists[li2]?
    if li1 ≠ li2 then
      let h2 ← listSwap s.heap f1 f2
      some ⟨h2, (s.lists.set li1 (f1, xs2)).set li2 (f2, xs1)⟩
    else none
  | .clearOp li => do
    let (f, xs) ← s.lists[li]?
    let h2 ← clearFuel xs.length s.heap f
    some ⟨h2, s.lists.set li (f, [])⟩
  | .moveCtorOp li g => do
    let (f, xs) ← s.lists[li]?
    if ∀ en ∈ s.lists, g ∉ ring en then
      let h2 ← moveCtor s.heap g f xs.length
      some ⟨h2, (s.lists.set li (f, [])) ++ [(g, xs)]⟩
    else none
  | .moveAssignOp li1 li2 => do
    let (f1, xs1) ← s.lists[li1]?
    let (f2, xs2) ← s.lists[li2]?
    if li1 ≠ li2 then
      let h2 ← moveAssign s.heap f1 f2 xs1.length
      some ⟨h2, (s.lists.set li1 (f1, xs2)).set li2 (f2, [])⟩
    else none

def runOps : GState → List Op → Option GState
  | s, [] => some s
  | s, op :: rest =>
    match applyOp s op with
    | none => none
    | some s2 => runOps s2 rest

/-- All nodes start out detached. -/
def initHeap : Heap := fun _ => ⟨none, none⟩

/-- A family of default-constructed lists, one per sentinel address. -/
def initState (fakes : List Nat) : GState :=
  ⟨fakes.foldl mkList initHeap, fakes.map (fun f => (f, []))⟩

/-- The structural well-formedness of a state: each list is a valid ring
with no duplicate nodes, and distinct lists own disjoint address sets. -/
def entryWF (h : Heap) (en : Nat × List Nat) : Prop :=
  seg h en.1 en.2 en.1 ∧ (ring en).Nodup

def WF (s : GState) : Prop :=
  (∀ i : Fin s.lists.length, entryWF s.heap (s.lists.get i)) ∧
  (∀ i j : Fin s.lists.length, i.val ≠ j.val →
    ∀ n, n ∈ ring (s.lists.get i) → n ∉ ring (s.lists.get j))

theorem detached_notin {h : Heap} {en : Nat × List Nat} (hw : entryWF h en) {e : Nat}
    (hd : detached h e) : e ∉ ring en := by
  intro hmem
  obtain ⟨m, hm, _⟩ := seg_next_total hw.1 e hmem
  rw [hd.1] at hm
  exact Option.noConfusion hm

theorem seg_congr_ring {h h2 : Heap} {f : Nat} {xs : List Nat}
    (heq : ∀ n ∈ f :: xs, h2 n = h n) (hs : seg h f xs f) : seg h2 f xs f := by
  refine seg_congr (fun n hn => by rw [heq n hn]) (fun n hn => ?_) hs
  rcases List.mem_append.1 hn with h1 | h1
  · rw [heq n (List.mem_cons_of_mem _ h1)]
  · have hnf : n = f := by simpa using h1
    rw [hnf, heq f (List.mem_cons_self _ _)]

theorem headD_cons_tail {l : List Nat} {d : Nat} (h : l ≠ []) : l.headD d :: l.tail = l := by
  cases l with
  | nil => exact absurd rfl h
  | cons a l => rfl

/-- Well-formedness is preserved when (at most) two entries are rewritten,
provided the new rings are valid, draw their nodes only from the two old
rings plus the fresh nodes `extra`, are mutually disjoint, and the heap is
unchanged outside the affected nodes. -/
theorem WF_set_pair {s : GState} (hWF : WF s) {li1 li2 : Nat}
    {f1 f2 : Nat} {xs1 xs2 ys1 ys2 : List Nat} (extra : List Nat) {h2 : Heap}
    (hget1 : s.lists[li1]? = some (f1, xs1))
    (hget2 : s.lists[li2]? = some (f2, xs2))
    (hseg1 : seg h2 f1 ys1 f1) (hnd1 : (f1 :: ys1).Nodup)
    (hseg2 : seg h2 f2 ys2 f2) (hnd2 : (f2 :: ys2).Nodup)
    (hsub1 : ∀ n ∈ f1 :: ys1, n ∈ f1 :: xs1 ∨ n ∈ f2 :: xs2 ∨ n ∈ extra)
    (hsub2 : ∀ n ∈ f2 :: ys2, n ∈ f1 :: xs1 ∨ n ∈ f2 :: xs2 ∨ n ∈ extra)
    (hd12 : li1 ≠ li2 → ∀ n ∈ f1 :: ys1, n ∉ f2 :: ys2)
    (hextra : ∀ n ∈ extra, ∀ j : Fin s.lists.length, j.val ≠ li1 → j.val ≠ li2 →
      n ∉ ring (s.lists.get j))
    (hframe : ∀ n, n ∉ f1 :: xs1 → n ∉ f2 :: xs2 → n ∉ extra → h2 n = s.heap n) :
    WF ⟨h2, (s.lists.set li1 (f1, ys1)).set li2 (f2, ys2)⟩ := by
  rcases List.getElem?_eq_some_iff.1 hget1 with ⟨hlt1, hgetE1⟩
  rcases List.getElem?_eq_some_iff.1 hget2 with ⟨hlt2, hgetE2⟩
  have hring1 : ring (s.lists.get ⟨li1, hlt1⟩) = f1 :: xs1 := by
    rw [show s.lists.get ⟨li1, hlt1⟩ = (f1, xs1) from by simpa [List.get_eq_getElem] using hgetE1]
    rfl
  have hring2 : ring (s.lists.get ⟨li2, hlt2⟩) = f2 :: xs2 := by
    rw [show s.lists.get ⟨li2, hlt2⟩ = (f2, xs2) from by simpa [List.get_eq_getElem] using hgetE2]
    rfl
  have hgetPair : ∀ idx : Fin ((s.lists.set li1 (f1, ys1)).set li2 (f2, ys2)).length,
      ((s.lists.set li1 (f1, ys1)).set li2 (f2, ys2)).get idx =
        if li2 = idx.val then (f2, ys2)
        else if li1 = idx.val then (f1, ys1)
        else s.lists.get ⟨idx.val, by simpa using idx.isLt⟩ := by
    intro idx
    simp [List.get_eq_getElem, List.getElem_set]
  have hOldNotin : ∀ jj : Fin s.lists.length, jj.val ≠ li1 → jj.val ≠ li2 →
      ∀ n, (n ∈ f1 :: xs1 ∨ n ∈ f2 :: xs2 ∨ n ∈ extra) → n ∉ ring (s.lists.get jj) := by
    intro jj hj1 hj2 n hcase hmem
    rcases hcase with hc | hc | hc
    · exact hWF.2 jj ⟨li1, hlt1⟩ hj1 n hmem (hring1 ▸ hc)
    · exact hWF.2 jj ⟨li2, hlt2⟩ hj2 n hmem (hring2 ▸ hc)
    · exact hextra n hc jj hj1 hj2 hmem
  constructor
  · intro i
    have hilen : i.val < s.lists.length := by simpa using i.isLt
    rw [hgetPair i]
    by_cases h2i : li2 = i.val
    · rw [if_pos h2i]; exact ⟨hseg2, hnd2⟩
    · rw [if_neg h2i]
      by_cases h1i : li1 = i.val
      · rw [if_pos h1i]; exact ⟨hseg1, hnd1⟩
      · rw [if_neg h1i]
        have hold := hWF.1 ⟨i.val, hilen⟩
        refine ⟨seg_congr_ring ?_ hold.1, hold.2⟩
        intro n hn
        have hn1 : n ∉ ring (s.lists.get ⟨li1, hlt1⟩) :=
          hWF.2 ⟨i.val, hilen⟩ ⟨li1, hlt1⟩ (fun hq => h1i hq.symm) n hn
        have hn2 : n ∉ ring (s.lists.get ⟨li2, hlt2⟩) :=
          hWF.2 ⟨i.val, hilen⟩ ⟨li2, hlt2⟩ (fun hq => h2i hq.symm) n hn
        rw [hring1] at hn1
        rw [hring2] at hn2
        have hn3 : n ∉ extra := fun hq =>
          hextra n hq ⟨i.val, hilen⟩ (fun hq2 => h1i hq2.symm) (fun hq2 => h2i hq2.symm) hn
        exact hframe n hn1 hn2 hn3
  · intro i j hij n hni
    have hilen : i.val < s.lists.length := by simpa using i.isLt
    have hjlen : j.val < s.lists.length := by simpa using j.isLt
    rw [hgetPair i] at hni
    rw [hgetPair j]
    by_cases h2i : li2 = i.val <;> by_cases h2j : li2 = j.val
    · exact absurd (h2i.symm.trans h2j) hij
    · rw [if_pos h2i] at hni
      rw [if_neg h2j]
      by_cases h1j : li1 = j.val
      · rw [if_pos h1j]
        have hne : li1 ≠ li2 := fun hq => h2j (hq ▸ h1j)
        intro hmem
        exact hd12 hne n hmem hni
      · rw [if_neg h1j]
        exact hOldNotin ⟨j.val, hjlen⟩ (fun hq => h1j hq.symm) (fun hq => h2j hq.symm) n
          (hsub2 n hni)
    · rw [if_neg h2i] at hni
      rw [if_pos h2j]
      by_cases h1i : li1 = i.val
      · rw [if_pos h1i] at hni
        have hne : li1 ≠ li2 := fun hq => h2i (hq ▸ h1i)
        exact hd12 hne n hni
      · rw [if_neg h1i] at hni
        intro hmem
        exact hOldNotin ⟨i.val, hilen⟩ (fun hq => h1i hq.symm) (fun hq => h2i hq.symm) n
          (hsub2 n hmem) hni
    · rw [if_neg h2i] at hni
      rw [if_neg h2j]
      by_cases h1i : li1 = i.val <;> by_cases h1j : li1 = j.val
      · exact absurd (h1i.symm.trans h1j) hij
      · rw [if_pos h1i] at hni
        rw [if_neg h1j]
        exact hOldNotin ⟨j.val, hjlen⟩ (fun hq => h1j hq.symm) (fun hq => h2j hq.symm) n
          (hsub1 n hni)
      · rw [if_neg h1i] at hni
        rw [if_pos h1j]
        intro hmem
        exact hOldNotin ⟨i.val, hilen⟩ (fun hq => h1i hq.symm) (fun hq => h2i hq.symm) n
          (hsub1 n hmem) hni
      · rw [if_neg h1i] at hni
        rw [if_neg h1j]
        exact hWF.2 ⟨i.val, hilen⟩ ⟨j.val, hjlen⟩ (by simpa using hij) n hni

/-- Well-formedness is preserved by a move-construction: the source entry
becomes empty and a new list with a fresh sentinel `g` takes over its
elements. -/
theorem WF_move_ctor {s : GState} (hWF : WF s) {li g f : Nat} {xs : List Nat} {h2 : Heap}
    (hget : s.lists[li]? = some (f, xs))
    (hgfresh : ∀ j : Fin s.lists.length, g ∉ ring (s.lists.get j))
    (hsegf : seg h2 f [] f)
    (hsegg : seg h2 g xs g) (hndg : (g :: xs).Nodup)
    (hframe : ∀ n, n ∉ f :: xs → n ≠ g → h2 n = s.heap n) :
    WF ⟨h2, (s.lists.set li (f, [])) ++ [(g, xs)]⟩ := by
  rcases List.getElem?_eq_some_iff.1 hget with ⟨hlt, hgetE⟩
  have hring : ring (s.lists.get ⟨li, hlt⟩) = f :: xs := by
    rw [show s.lists.get ⟨li, hlt⟩ = (f, xs) from by simpa [List.get_eq_getElem] using hgetE]
    rfl
  have hfxs : f ∉ xs := by
    have := (hWF.1 ⟨li, hlt⟩).2
    rw [hring] at this
    exact (List.nodup_cons.1 this).1
  have hgli : g ∉ f :: xs := hring ▸ hgfresh ⟨li, hlt⟩
  have hgf : g ≠ f := fun hq => hgli (hq ▸ List.mem_cons_self _ _)
  have hgxs : g ∉ xs := fun hq => hgli (List.mem_cons_of_mem _ hq)
  have hget2 : ∀ idx : Fin ((s.lists.set li (f, [])) ++ [(g, xs)]).length,
      ((s.lists.set li (f, [])) ++ [(g, xs)]).get idx =
        if hq : idx.val < s.lists.length then
          (if li = idx.val then (f, []) else s.lists.get ⟨idx.val, hq⟩)
        else (g, xs) := by
    intro idx
    by_cases hq : idx.val < s.lists.length
    · rw [dif_pos hq]
      have hlt2 : idx.val < (s.lists.set li (f, [])).length := by simpa using hq
      rw [List.get_eq_getElem, List.getElem_append_left hlt2]
      simp [List.getElem_set]
    · rw [dif_neg hq]
      have hlen2 : idx.val = (s.lists.set li (f, [])).length := by
        have := idx.isLt
        simp only [List.length_append, List.length_set, List.length_cons,
          List.length_nil] at this
        simp only [List.length_set]
        omega
      rw [List.get_eq_getElem, List.getElem_append_right (le_of_eq hlen2.symm)]
      simp [hlen2]
  constructor
  · intro i
    rw [hget2 i]
    by_cases hq : i.val < s.lists.length
    · rw [dif_pos hq]
      by_cases h1i : li = i.val
      · rw [if_pos h1i]
        exact ⟨hsegf, by simp [ring]⟩
      · rw [if_neg h1i]
        have hold := hWF.1 ⟨i.val, hq⟩
        refine ⟨seg_congr_ring ?_ hold.1, hold.2⟩
        intro n hn
        have hn1 : n ∉ ring (s.lists.get ⟨li, hlt⟩) :=
          hWF.2 ⟨i.val, hq⟩ ⟨li, hlt⟩ (fun hq2 => h1i hq2.symm) n hn
        rw [hring] at hn1
        have hn2 : n ≠ g := fun hq2 => hgfresh ⟨i.val, hq⟩ (hq2 ▸ hn)
        exact hframe n hn1 hn2
    · rw [dif_neg hq]
      exact ⟨hsegg, hndg⟩
  · intro i j hij n hni
    rw [hget2 i] at hni
    rw [hget2 j]
    by_cases hqi : i.val < s.lists.length <;> by_cases hqj : j.val < s.lists.length
    · rw [dif_pos hqi] at hni
      rw [dif_pos hqj]
      by_cases h1i : li = i.val <;> by_cases h1j : li = j.val
      · exact absurd (h1i.symm.trans h1j) hij
      · rw [if_pos h1i] at hni
        rw [if_neg h1j]
        have hnf : n = f := by simpa [ring] using hni
        rw [hnf]
        have := hWF.2 ⟨li, hlt⟩ ⟨j.val, hqj⟩ (fun hq2 => h1j hq2) n ?memli
        · rw [hnf] at this; exact this
        · rw [hring, hnf]; exact List.mem_cons_self _ _
      · rw [if_neg h1i] at hni
        rw [if_pos h1j]
        intro hmem
        have hnf : n = f := by simpa [ring] using hmem
        have := hWF.2 ⟨i.val, hqi⟩ ⟨li, hlt⟩ (fun hq2 => h1i hq2.symm) n hni
        rw [hring] at this
        exact this (hnf ▸ List.mem_cons_self f xs)
      · rw [if_neg h1i] at hni
        rw [if_neg h1j]
        exact hWF.2 ⟨i.val, hqi⟩ ⟨j.val, hqj⟩ (by simpa using hij) n hni
    · rw [dif_pos hqi] at hni
      rw [dif_neg hqj]
      by_cases h1i : li = i.val
      · rw [if_pos h1i] at hni
        have hnf : n = f := by simpa [ring] using hni
        rw [hnf]
        intro hmem
        rcases List.mem_cons.1 hmem with hc | hc
        · exact hgf hc.symm
        · exact hfxs hc
      · rw [if_neg h1i] at hni
        intro hmem
        rcases List.mem_cons.1 hmem with hc | hc
        · exact hgfresh ⟨i.val, hqi⟩ ((show n = g from hc) ▸ hni)
        · have := hWF.2 ⟨i.val, hqi⟩ ⟨li, hlt⟩ (fun hq2 => h1i hq2.symm) n hni
          rw [hring] at this
          exact this (List.mem_cons_of_mem _ hc)
    · rw [dif_neg hqi] at hni
      rw [dif_pos hqj]
      by_cases h1j : li = j.val
      · rw [if_pos h1j]
        intro hmem
        have hnf : n = f := by simpa [ring] using hmem
        rw [hnf] at hni
        rcases List.mem_cons.1 hni with hc | hc
        · exact hgf hc.symm
        · exact hfxs hc
      · rw [if_neg h1j]
        intro hmem
        rcases List.mem_cons.1 hni with hc | hc
        · exact hgfresh ⟨j.val, hqj⟩ ((show n = g from hc) ▸ hmem)
        · have := hWF.2 ⟨j.val, hqj⟩ ⟨li, hlt⟩ (fun hq2 => h1j hq2.symm) n hmem
          rw [hring] at this
          exact this (List.mem_cons_of_mem _ hc)
    · exfalso
      have hi := i.isLt
      have hj := j.isLt
      simp only [List.length_append, List.length_set, List.length_cons,
        List.length_nil] at hi hj
      omega

theorem entry_data {s : GState} (hWF : WF s) {li : Nat} {f : Nat} {xs : List Nat}
    (hget : s.lists[li]? = some (f, xs)) :
    seg s.heap f xs f ∧ (f :: xs).Nodup := by
  rcases List.getElem?_eq_some_iff.1 hget with ⟨hlt, hgetE⟩
  have hw := hWF.1 ⟨li, hlt⟩
  rw [show s.lists.get ⟨li, hlt⟩ = (f, xs) from
    by simpa [List.get_eq_getElem] using hgetE] at hw
  exact hw

theorem detached_fresh {s : GState} (hWF : WF s) {e : Nat} (hd : detached s.heap e) :
    ∀ j : Fin s.lists.length, e ∉ ring (s.lists.get j) :=
  fun j => detached_notin (hWF.1 j) hd

theorem nodup_insertMid {f e : Nat} {u v : List Nat} (hnd : (f :: (u ++ v)).Nodup)
    (he : e ∉ f :: (u ++ v)) : (f :: (u ++ e :: v)).Nodup := by
  rcases List.nodup_cons.1 hnd with ⟨h1, h2⟩
  have hef : e ≠ f := fun hq => he (hq ▸ List.mem_cons_self _ _)
  refine List.nodup_cons.2 ⟨?_, ?_⟩
  · intro hq
    rcases List.mem_append.1 hq with hc | hc
    · exact h1 (List.mem_append_left _ hc)
    · rcases List.mem_cons.1 hc with hc2 | hc2
      · exact hef hc2.symm
      · exact h1 (List.mem_append_right _ hc2)
  · rw [List.nodup_middle]
    exact List.nodup_cons.2 ⟨fun hq => he (List.mem_cons_of_mem _ hq), h2⟩

theorem mem_insertMid {f e n : Nat} {u v : List Nat} (hn : n ∈ f :: (u ++ e :: v)) :
    n ∈ f :: (u ++ v) ∨ n ∈ [e] := by
  rcases List.mem_cons.1 hn with h1 | h1
  · exact Or.inl (h1 ▸ List.mem_cons_self _ _)
  · rcases List.mem_append.1 h1 with h2 | h2
    · exact Or.inl (List.mem_cons_of_mem _ (List.mem_append_left _ h2))
    · rcases List.mem_cons.1 h2 with h3 | h3
      · exact Or.inr (by rw [h3]; exact List.mem_cons_self _ _)
      · exact Or.inl (List.mem_cons_of_mem _ (List.mem_append_right _ h3))

theorem rings_disjoint {s : GState} (hWF : WF s) {li1 li2 : Nat} {f1 f2 : Nat}
    {xs1 xs2 : List Nat} (hne : li1 ≠ li2)
    (hg1 : s.lists[li1]? = some (f1, xs1)) (hg2 : s.lists[li2]? = some (f2, xs2)) :
    ∀ n ∈ f1 :: xs1, n ∉ f2 :: xs2 := by
  rcases List.getElem?_eq_some_iff.1 hg1 with ⟨hlt1, hE1⟩
  rcases List.getElem?_eq_some_iff.1 hg2 with ⟨hlt2, hE2⟩
  have hd := hWF.2 ⟨li1, hlt1⟩ ⟨li2, hlt2⟩ hne
  intro n hn
  have h1 : n ∈ ring (s.lists.get ⟨li1, hlt1⟩) := by
    rw [show s.lists.get ⟨li1, hlt1⟩ = (f1, xs1) from
      by simpa [List.get_eq_getElem] using hE1]
    exact hn
  have h2 := hd n h1
  rw [show s.lists.get ⟨li2, hlt2⟩ = (f2, xs2) from
    by simpa [List.get_eq_getElem] using hE2] at h2
  exact h2

theorem nodup_splice_target {f1 : Nat} {u v mid : List Nat}
    (hnd : (f1 :: (u ++ v)).Nodup) (hmid : mid.Nodup)
    (hdisj : ∀ n ∈ mid, n ∉ f1 :: (u ++ v)) :
    (f1 :: (u ++ (mid ++ v))).Nodup := by
  rcases List.nodup_cons.1 hnd with ⟨hf, huv⟩
  rcases List.nodup_append.1 huv with ⟨hu, hv, hduv⟩
  refine List.nodup_cons.2 ⟨?_, List.nodup_append.2 ⟨hu, List.nodup_append.2
    ⟨hmid, hv, ?_⟩, ?_⟩⟩
  · intro hq
    rcases List.mem_append.1 hq with h1 | h1
    · exact hf (List.mem_append_left _ h1)
    · rcases List.mem_append.1 h1 with h2 | h2
      · exact hdisj _ h2 (List.mem_cons_self _ _)
      · exact hf (List.mem_append_right _ h2)
  · intro a ha hb
    exact hdisj _ ha (List.mem_cons_of_mem _ (List.mem_append_right _ hb))
  · intro a ha hb
    rcases List.mem_append.1 hb with h1 | h1
    · exact hdisj _ h1 (List.mem_cons_of_mem _ (List.mem_append_left _ ha))
    · exact hduv ha h1

theorem nodup_mid_notin {f2 : Nat} {u2 mid v2 : List Nat}
    (hnd : (f2 :: (u2 ++ (mid ++ v2))).Nodup) :
    ∀ n ∈ mid, n ∉ f2 :: (u2 ++ v2) := by
  rcases List.nodup_cons.1 hnd with ⟨hf, hrest⟩
  rcases List.nodup_append.1 hrest with ⟨hu2, hmv, hdu⟩
  rcases List.nodup_append.1 hmv with ⟨_, _, hdmv⟩
  intro n hn hq
  rcases List.mem_cons.1 hq with h1 | h1
  · exact hf (h1 ▸ List.mem_append_right _ (List.mem_append_left _ hn))
  · rcases List.mem_append.1 h1 with h2 | h2
    · exact hdu h2 (List.mem_append_left _ hn)
    · exact hdmv hn h2

/-- Every operation that `applyOp` accepts preserves well-formedness. -/
theorem WF_applyOp {s s2 : GState} {op : Op} (hWF : WF s) (hrun : applyOp s op = some s2) :
    WF s2 := by
  cases op with
  | pushBack li e =>
    simp only [applyOp] at hrun
    cases hg : s.lists[li]? with
    | none => rw [hg] at hrun; simp at hrun
    | some fx =>
      obtain ⟨f, xs⟩ := fx
      rw [hg] at hrun
      simp only [Option.bind_eq_bind, Option.some_bind] at hrun
      by_cases hd : detached s.heap e
      · rw [if_pos hd] at hrun
        obtain ⟨hseg, hnd⟩ := entry_data hWF hg
        have he : e ∉ f :: xs := @detached_notin s.heap (f, xs) ⟨hseg, hnd⟩ e hd
        obtain ⟨h2, hpb, hseg2, hnextF, hprevF⟩ := push_back_ring hseg hnd he
        rw [hpb] at hrun
        simp only [Option.bind_eq_bind, Option.some_bind, Option.some_inj] at hrun
        subst hrun
        rw [show s.lists.set li (f, xs ++ [e]) =
          (s.lists.set li (f, xs ++ [e])).set li (f, xs ++ [e]) from (List.set_set _ _ _ _).symm]
        have hnd2 : (f :: (xs ++ [e])).Nodup := by
          have := nodup_insertMid (u := xs) (v := []) (by rwa [List.append_nil])
            (by rwa [List.append_nil])
          simpa using this
        refine WF_set_pair hWF [e] hg hg hseg2 hnd2 hseg2 hnd2 ?_ ?_
          (fun hq => absurd rfl hq) ?_ ?_
        · intro n hn
          have := mem_insertMid (u := xs) (v := []) (by simpa using hn)
          rw [List.append_nil] at this
          tauto
        · intro n hn
          have := mem_insertMid (u := xs) (v := []) (by simpa using hn)
          rw [List.append_nil] at this
          tauto
        · intro n hn j _ _
          have hne : n = e := by simpa using hn
          exact hne ▸ detached_fresh hWF hd j
        · intro n hn _ hne2
          have hne : n ≠ e := by simpa using hne2
          have hnf : n ≠ f := fun hq => hn (hq ▸ List.mem_cons_self _ _)
          have hnxs : n ∉ xs := fun hq => hn (List.mem_cons_of_mem _ hq)
          have c1 : n ≠ xs.getLastD f :=
            ne_of_not_mem_cons (List.getLastD_mem_cons xs f) hnf hnxs
          ext
          · rw [hnextF, if_neg c1, if_neg hne]
          · rw [hprevF, if_neg hnf, if_neg hne]
      · simp [hd] at hrun
  | pushFront li e =>
    simp only [applyOp] at hrun
    cases hg : s.lists[li]? with
    | none => rw [hg] at hrun; simp at hrun
    | some fx =>
      obtain ⟨f, xs⟩ := fx
      rw [hg] at hrun
      simp only [Option.bind_eq_bind, Option.some_bind] at hrun
      by_cases hd : detached s.heap e
      · rw [if_pos hd] at hrun
        obtain ⟨hseg, hnd⟩ := entry_data hWF hg
        have he : e ∉ f :: xs := @detached_notin s.heap (f, xs) ⟨hseg, hnd⟩ e hd
        obtain ⟨h2, hpf, hseg2, hnextF, hprevF⟩ := push_front_ring hseg hnd he
        rw [hpf] at hrun
        simp only [Option.bind_eq_bind, Option.some_bind, Option.some_inj] at hrun
        subst hrun
        rw [show s.lists.set li (f, e :: xs) =
          (s.lists.set li (f, e :: xs)).set li (f, e :: xs) from (List.set_set _ _ _ _).symm]
        have hnd2 : (f :: (e :: xs)).Nodup := by
          have := nodup_insertMid (u := []) (v := xs) hnd he
          simpa using this
        refine WF_set_pair hWF [e] hg hg hseg2 hnd2 hseg2 hnd2 ?_ ?_
          (fun hq => absurd rfl hq) ?_ ?_
        · intro n hn
          have := mem_insertMid (u := []) (v := xs) (by simpa using hn)
          tauto
        · intro n hn
          have := mem_insertMid (u := []) (v := xs) (by simpa using hn)
          tauto
        · intro n hn j _ _
          have hne : n = e := by simpa using hn
          exact hne ▸ detached_fresh hWF hd j
        · intro n hn _ hne2
          have hne : n ≠ e := by simpa using hne2
          have hnf : n ≠ f := fun hq => hn (hq ▸ List.mem_cons_self _ _)
          have hnxs : n ∉ xs := fun hq => hn (List.mem_cons_of_mem _ hq)
          have c1 : n ≠ xs.headD f :=
            ne_of_not_mem_cons (headD_mem_cons xs f) hnf hnxs
          ext
          · rw [hnextF, if_neg hnf, if_neg hne]
          · rw [hprevF, if_neg c1, if_neg hne]
      · simp [hd] at hrun
  | popBack li =>
    simp only [applyOp] at hrun
    cases hg : s.lists[li]? with
    | none => rw [hg] at hrun; simp at hrun
    | some fx =>
      obtain ⟨f, xs⟩ := fx
      rw [hg] at hrun
      simp only [Option.bind_eq_bind, Option.some_bind] at hrun
      by_cases hne : xs ≠ []
      · rw [if_pos hne] at hrun
        obtain ⟨hseg, hnd⟩ := entry_data hWF hg
        obtain ⟨h2, hpb, hseg2, _, hframe⟩ := pop_back_ring hseg hnd hne
        rw [hpb] at hrun
        simp only [Option.bind_eq_bind, Option.some_bind, Option.some_inj] at hrun
        subst hrun
        rw [show s.lists.set li (f, xs.dropLast) =
          (s.lists.set li (f, xs.dropLast)).set li (f, xs.dropLast) from
            (List.set_set _ _ _ _).symm]
        have hnd2 : (f :: xs.dropLast).Nodup :=
          List.Nodup.sublist (List.Sublist.cons₂ f (List.dropLast_sublist xs)) hnd
        have hsub : ∀ n ∈ f :: xs.dropLast, n ∈ f :: xs ∨ n ∈ f :: xs ∨ n ∈ ([] : List Nat) := by
          intro n hn
          rcases List.mem_cons.1 hn with h1 | h1
          · exact Or.inl (h1 ▸ List.mem_cons_self _ _)
          · exact Or.inl (List.mem_cons_of_mem _ (List.dropLast_subset xs h1))
        refine WF_set_pair hWF [] hg hg hseg2 hnd2 hseg2 hnd2 hsub hsub
          (fun hq => absurd rfl hq) (by simp) ?_
        intro n hn _ _
        exact hframe n hn
      · simp [hne] at hrun
  | popFront li =>
    simp only [applyOp] at hrun
    cases hg : s.lists[li]? with
    | none => rw [hg] at hrun; simp at hrun
    | some fx =>
      obtain ⟨f, xs⟩ := fx
      rw [hg] at hrun
      simp only [Option.bind_eq_bind, Option.some_bind] at hrun
      by_cases hne : xs ≠ []
      · rw [if_pos hne] at hrun
        obtain ⟨hseg, hnd⟩ := entry_data hWF hg
        obtain ⟨h2, hpf, hseg2, _, hframe⟩ := pop_front_ring hseg hnd hne
        rw [hpf] at hrun
        simp only [Option.bind_eq_bind, Option.some_bind, Option.some_inj] at hrun
        subst hrun
        rw [show s.lists.set li (f, xs.tail) =
          (s.lists.set li (f, xs.tail)).set li (f, xs.tail) from (List.set_set _ _ _ _).symm]
        have hnd2 : (f :: xs.tail).Nodup :=
          List.Nodup.sublist (List.Sublist.cons₂ f (List.tail_sublist xs)) hnd
        have hsub : ∀ n ∈ f :: xs.tail, n ∈ f :: xs ∨ n ∈ f :: xs ∨ n ∈ ([] : List Nat) := by
          intro n hn
          rcases List.mem_cons.1 hn with h1 | h1
          · exact Or.inl (h1 ▸ List.mem_cons_self _ _)
          · exact Or.inl (List.mem_cons_of_mem _ (List.tail_subset xs h1))
        refine WF_set_pair hWF [] hg hg hseg2 hnd2 hseg2 hnd2 hsub hsub
          (fun hq => absurd rfl hq) (by simp) ?_
        intro n hn _ _
        exact hframe n hn
      · simp [hne] at hrun
  | clearOp li =>
    simp only [applyOp] at hrun
    cases hg : s.lists[li]? with
    | none => rw [hg] at hrun; simp at hrun
    | some fx =>
      obtain ⟨f, xs⟩ := fx
      rw [hg] at hrun
      simp only [Option.bind_eq_bind, Option.some_bind] at hrun
      obtain ⟨hseg, hnd⟩ := entry_data hWF hg
      obtain ⟨h2, hcl, hf2, _, hframe⟩ := clearFuel_ring hseg hnd xs.length le_rfl
      rw [hcl] at hrun
      simp only [Option.bind_eq_bind, Option.some_bind, Option.some_inj] at hrun
      subst hrun
      rw [show s.lists.set li (f, []) =
        (s.lists.set li (f, [])).set li (f, []) from (List.set_set _ _ _ _).symm]
      have hseg2 : seg h2 f [] f := by
        refine ⟨?_, ?_⟩ <;> rw [hf2]
      refine WF_set_pair hWF [] hg hg hseg2 (by simp) hseg2 (by simp) ?_ ?_
        (fun hq => absurd rfl hq) (by simp) ?_
      · intro n hn
        have : n = f := by simpa using hn
        exact Or.inl (this ▸ List.mem_cons_self _ _)
      · intro n hn
        have : n = f := by simpa using hn
        exact Or.inl (this ▸ List.mem_cons_self _ _)
      · intro n hn _ _
        have hnf : n ≠ f := fun hq => hn (hq ▸ List.mem_cons_self _ _)
        have hnxs : n ∉ xs := fun hq => hn (List.mem_cons_of_mem _ hq)
        exact hframe n hnf hnxs
  | insertAt li i e =>
    simp only [applyOp] at hrun
    cases hg : s.lists[li]? with
    | none => rw [hg] at hrun; simp at hrun
    | some fx =>
      obtain ⟨f, xs⟩ := fx
      rw [hg] at hrun
      simp only [Option.bind_eq_bind, Option.some_bind] at hrun
      by_cases hc : i ≤ xs.length ∧ detached s.heap e
      · rw [if_pos hc] at hrun
        obtain ⟨hseg, hnd⟩ := entry_data hWF hg
        have he : e ∉ f :: xs := @detached_notin s.heap (f, xs) ⟨hseg, hnd⟩ e hc.2
        have hsplit : xs.take i ++ xs.drop i = xs := List.take_append_drop i xs
        have hs' : seg s.heap f (xs.take i ++ xs.drop i) f := by rw [hsplit]; exact hseg
        have hnd' : (f :: (xs.take i ++ xs.drop i)).Nodup := by rw [hsplit]; exact hnd
        have he' : e ∉ f :: (xs.take i ++ xs.drop i) := by rw [hsplit]; exact he
        obtain ⟨h2, hins, hseg2, hnextF, hprevF⟩ := insert_ring hs' hnd' he'
        rw [hins] at hrun
        simp only [Option.bind_eq_bind, Option.some_bind, Option.some_inj] at hrun
        subst hrun
        rw [show s.lists.set li (f, xs.take i ++ e :: xs.drop i) =
          (s.lists.set li (f, xs.take i ++ e :: xs.drop i)).set li
            (f, xs.take i ++ e :: xs.drop i) from (List.set_set _ _ _ _).symm]
        have hnd2 : (f :: (xs.take i ++ e :: xs.drop i)).Nodup := nodup_insertMid hnd' he'
        have hsub : ∀ n ∈ f :: (xs.take i ++ e :: xs.drop i),
            n ∈ f :: xs ∨ n ∈ f :: xs ∨ n ∈ [e] := by
          intro n hn
          rcases mem_insertMid hn with h1 | h1
          · rw [hsplit] at h1; tauto
          · tauto
        refine WF_set_pair hWF [e] hg hg hseg2 hnd2 hseg2 hnd2 hsub hsub
          (fun hq => absurd rfl hq) ?_ ?_
        · intro n hn j _ _
          have hne : n = e := by simpa using hn
          exact hne ▸ detached_fresh hWF hc.2 j
        · intro n hn _ hne2
          have hne : n ≠ e := by simpa using hne2
          have hnf : n ≠ f := fun hq => hn (hq ▸ List.mem_cons_self _ _)
          have hnxs : n ∉ xs := fun hq => hn (List.mem_cons_of_mem _ hq)
          have c1 : n ≠ (xs.take i).getLastD f :=
            ne_of_not_mem_cons (List.getLastD_mem_cons _ f) hnf
              (fun hq => hnxs (List.take_subset _ _ hq))
          have c2 : n ≠ (xs.drop i).headD f :=
            ne_of_not_mem_cons (headD_mem_cons _ f) hnf
              (fun hq => hnxs (List.drop_subset _ _ hq))
          ext
          · rw [hnextF, if_neg c1, if_neg hne]
          · rw [hprevF, if_neg c2, if_neg hne]
      · simp [hc] at hrun
  | eraseAt li i =>
    simp only [applyOp] at hrun
    cases hg : s.lists[li]? with
    | none => rw [hg] at hrun; simp at hrun
    | some fx =>
      obtain ⟨f, xs⟩ := fx
      rw [hg] at hrun
      simp only [Option.bind_eq_bind, Option.some_bind] at hrun
      by_cases hc : i < xs.length
      · rw [if_pos hc] at hrun
        simp only [Option.some_inj] at hrun
        subst hrun
        obtain ⟨hseg, hnd⟩ := entry_data hWF hg
        have hdne : xs.drop i ≠ [] := by
          rw [Ne, List.drop_eq_nil_iff]
          omega
        have hdsplit : (xs.drop i).headD f :: (xs.drop i).tail = xs.drop i :=
          headD_cons_tail hdne
        have hsplit : xs.take i ++ ((xs.drop i).headD f :: (xs.drop i).tail) = xs := by
          rw [hdsplit]; exact List.take_append_drop i xs
        have hs' : seg s.heap f (xs.take i ++ ((xs.drop i).headD f :: (xs.drop i).tail)) f := by
          rw [hsplit]; exact hseg
        have hnd' : (f :: (xs.take i ++ ((xs.drop i).headD f :: (xs.drop i).tail))).Nodup := by
          rw [hsplit]; exact hnd
        obtain ⟨hseg2, hdet2, hnextF, hprevF⟩ := unlink_ring hs' hnd'
        rw [show s.lists.set li (f, xs.take i ++ (xs.drop i).tail) =
          (s.lists.set li (f, xs.take i ++ (xs.drop i).tail)).set li
            (f, xs.take i ++ (xs.drop i).tail) from (List.set_set _ _ _ _).symm]
        have hsubl : List.Sublist (f :: (xs.take i ++ (xs.drop i).tail))
            (f :: (xs.take i ++ ((xs.drop i).headD f :: (xs.drop i).tail))) :=
          List.Sublist.cons₂ f (List.Sublist.append_left (List.sublist_cons_self _ _) _)
        have hnd2 : (f :: (xs.take i ++ (xs.drop i).tail)).Nodup :=
          List.Nodup.sublist hsubl hnd'
        have hsub : ∀ n ∈ f :: (xs.take i ++ (xs.drop i).tail),
            n ∈ f :: xs ∨ n ∈ f :: xs ∨ n ∈ ([] : List Nat) := by
          intro n hn
          exact Or.inl (by rw [← hsplit] at hnd ⊢; exact hsubl.subset hn)
        refine WF_set_pair hWF [] hg hg hseg2 hnd2 hseg2 hnd2 hsub hsub
          (fun hq => absurd rfl hq) (by simp) ?_
        intro n hn _ _
        have hnf : n ≠ f := fun hq => hn (hq ▸ List.mem_cons_self _ _)
        have hnxs : n ∉ xs := fun hq => hn (List.mem_cons_of_mem _ hq)
        have c0 : n ≠ (xs.drop i).headD f :=
          ne_of_not_mem_cons (headD_mem_cons _ f) hnf
            (fun hq => hnxs (List.drop_subset _ _ hq))
        have c1 : n ≠ (xs.take i).getLastD f :=
          ne_of_not_mem_cons (List.getLastD_mem_cons _ f) hnf
            (fun hq => hnxs (List.take_subset _ _ hq))
        have c2 : n ≠ ((xs.drop i).tail).headD f :=
          ne_of_not_mem_cons (headD_mem_cons _ f) hnf
            (fun hq => hnxs (List.drop_subset _ _ (List.tail_subset _ hq)))
        ext
        · rw [show ((erase s.heap ((xs.drop i).headD f)).1 n).next =
            ((unlink s.heap ((xs.drop i).headD f)) n).next from rfl,
            hnextF, if_neg c0, if_neg c1]
        · rw [show ((erase s.heap ((xs.drop i).headD f)).1 n).prev =
            ((unlink s.heap ((xs.drop i).headD f)) n).prev from rfl,
            hprevF, if_neg c0, if_neg c2]
      · simp [hc] at hrun
  | spliceOp li1 i li2 j k =>
    simp only [applyOp] at hrun
    cases hg1 : s.lists[li1]? with
    | none => rw [hg1] at hrun; simp at hrun
    | some fx1 =>
      obtain ⟨f1, xs1⟩ := fx1
      rw [hg1] at hrun
      simp only [Option.bind_eq_bind, Option.some_bind] at hrun
      cases hg2 : s.lists[li2]? with
      | none => rw [hg2] at hrun; simp at hrun
      | some fx2 =>
        obtain ⟨f2, xs2⟩ := fx2
        rw [hg2] at hrun
        simp only [Option.bind_eq_bind, Option.some_bind] at hrun
        by_cases hcond : li1 ≠ li2 ∧ i ≤ xs1.length ∧ j ≤ k ∧ k ≤ xs2.length
        · rw [if_pos hcond] at hrun
          obtain ⟨hne12, hi, hjk, hk2⟩ := hcond
          obtain ⟨hseg1, hnd1⟩ := entry_data hWF hg1
          obtain ⟨hseg2, hnd2⟩ := entry_data hWF hg2
          have hdisj0 := rings_disjoint hWF hne12 hg1 hg2
          have hsplit1 : xs1.take i ++ xs1.drop i = xs1 := List.take_append_drop i xs1
          have hmid : (xs2.drop j).take (k - j) ++ xs2.drop k = xs2.drop j := by
            have h1 := List.take_append_drop (k - j) (xs2.drop j)
            rw [List.drop_drop] at h1
            rw [show j + (k - j) = k from by omega] at h1
            exact h1
          have hsplit2 : xs2.take j ++ ((xs2.drop j).take (k - j) ++ xs2.drop k) = xs2 := by
            rw [hmid]
            exact List.take_append_drop j xs2
          have hs1' : seg s.heap f1 (xs1.take i ++ xs1.drop i) f1 := by
            rw [hsplit1]; exact hseg1
          have hnd1' : (f1 :: (xs1.take i ++ xs1.drop i)).Nodup := by
            rw [hsplit1]; exact hnd1
          have hs2' : seg s.heap f2
              (xs2.take j ++ ((xs2.drop j).take (k - j) ++ xs2.drop k)) f2 := by
            rw [hsplit2]; exact hseg2
          have hnd2' : (f2 :: (xs2.take j ++
              ((xs2.drop j).take (k - j) ++ xs2.drop k))).Nodup := by
            rw [hsplit2]; exact hnd2
          have hdisj' : ∀ n, n ∈ f1 :: (xs1.take i ++ xs1.drop i) →
              n ∉ f2 :: (xs2.take j ++ ((xs2.drop j).take (k - j) ++ xs2.drop k)) := by
            rw [hsplit1, hsplit2]
            exact hdisj0
          obtain ⟨h2, hspl, hsegA, hsegB, hframe, _⟩ :=
            splice_ring hs1' hs2' hnd1' hnd2' hdisj'
          rw [hmid] at hspl
          rw [hspl] at hrun
          simp only [Option.bind_eq_bind, Option.some_bind, Option.some_inj] at hrun
          subst hrun
          have hmidsub : ∀ n ∈ (xs2.drop j).take (k - j), n ∈ xs2 := fun n hn =>
            List.drop_subset _ _ (List.take_subset _ _ hn)
          have hmidnd : ((xs2.drop j).take (k - j)).Nodup :=
            List.Nodup.sublist ((List.take_sublist _ _).trans (List.drop_sublist _ _))
              (List.nodup_cons.1 hnd2).2
          have hmiddisj1 : ∀ n ∈ (xs2.drop j).take (k - j),
              n ∉ f1 :: (xs1.take i ++ xs1.drop i) := by
            rw [hsplit1]
            intro n hn
            exact fun hq => hdisj0 n hq (List.mem_cons_of_mem _ (hmidsub n hn))
          have hndA : (f1 :: (xs1.take i ++
              ((xs2.drop j).take (k - j) ++ xs1.drop i))).Nodup :=
            nodup_splice_target hnd1' hmidnd hmiddisj1
          have hsublB : List.Sublist (f2 :: (xs2.take j ++ xs2.drop k))
              (f2 :: (xs2.take j ++ ((xs2.drop j).take (k - j) ++ xs2.drop k))) :=
            List.Sublist.cons₂ f2
              (List.Sublist.append_left (List.sublist_append_right _ _) _)
          have hndB : (f2 :: (xs2.take j ++ xs2.drop k)).Nodup :=
            List.Nodup.sublist hsublB hnd2'
          have hmidnotB := nodup_mid_notin hnd2'
          refine WF_set_pair hWF [] hg1 hg2 hsegA hndA hsegB hndB ?_ ?_ ?_ (by simp) ?_
          · intro n hn
            rcases List.mem_cons.1 hn with h1 | h1
            · exact Or.inl (h1 ▸ List.mem_cons_self _ _)
            · rcases List.mem_append.1 h1 with h2 | h2
              · exact Or.inl (List.mem_cons_of_mem _ (List.take_subset _ _ h2))
              · rcases List.mem_append.1 h2 with h3 | h3
                · exact Or.inr (Or.inl (List.mem_cons_of_mem _ (hmidsub n h3)))
                · exact Or.inl (List.mem_cons_of_mem _ (List.drop_subset _ _ h3))
          · intro n hn
            rcases List.mem_cons.1 hn with h1 | h1
            · exact Or.inr (Or.inl (h1 ▸ List.mem_cons_self _ _))
            · rcases List.mem_append.1 h1 with h2 | h2
              · exact Or.inr (Or.inl (List.mem_cons_of_mem _ (List.take_subset _ _ h2)))
              · exact Or.inr (Or.inl (List.mem_cons_of_mem _ (List.drop_subset _ _ h2)))
          · intro _ n hn hq
            have hqB : n ∈ f2 :: xs2 := by
              rw [← hsplit2]
              exact hsublB.subset hq
            rcases List.mem_cons.1 hn with h1 | h1
            · exact hdisj0 n (h1 ▸ List.mem_cons_self _ _) hqB
            · rcases List.mem_append.1 h1 with h2 | h2
              · refine hdisj0 n (List.mem_cons_of_mem _ ?_) hqB
                rw [← hsplit1]
                exact List.mem_append_left _ h2
              · rcases List.mem_append.1 h2 with h3 | h3
                · exact hmidnotB n h3 hq
                · refine hdisj0 n (List.mem_cons_of_mem _ ?_) hqB
                  rw [← hsplit1]
                  exact List.mem_append_right _ h3
          · intro n hn1 hn2 _
            have c1 : n ≠ f1 := fun hq => hn1 (hq ▸ List.mem_cons_self _ _)
            have c2 : n ≠ f2 := fun hq => hn2 (hq ▸ List.mem_cons_self _ _)
            have c3 : n ∉ xs1.take i ++ xs1.drop i := by
              rw [hsplit1]
              exact fun hq => hn1 (List.mem_cons_of_mem _ hq)
            have c4 : n ∉ xs2.take j ++ ((xs2.drop j).take (k - j) ++ xs2.drop k) := by
              rw [hsplit2]
              exact fun hq => hn2 (List.mem_cons_of_mem _ hq)
            exact hframe n c1 c2 c3 c4
        · rw [if_neg hcond] at hrun
          exact Option.noConfusion hrun
  | swapOp li1 li2 =>
    simp only [applyOp] at hrun
    cases hg1 : s.lists[li1]? with
    | none => rw [hg1] at hrun; simp at hrun
    | some fx1 =>
      obtain ⟨f1, xs1⟩ := fx1
      rw [hg1] at hrun
      simp only [Option.bind_eq_bind, Option.some_bind] at hrun
      cases hg2 : s.lists[li2]? with
      | none => rw [hg2] at hrun; simp at hrun
      | some fx2 =>
        obtain ⟨f2, xs2⟩ := fx2
        rw [hg2] at hrun
        simp only [Option.bind_eq_bind, Option.some_bind] at hrun
        by_cases hne12 : li1 ≠ li2
        · rw [if_pos hne12] at hrun
          obtain ⟨hseg1, hnd1⟩ := entry_data hWF hg1
          obtain ⟨hseg2, hnd2⟩ := entry_data hWF hg2
          have hdisj := rings_disjoint hWF hne12 hg1 hg2
          obtain ⟨h2, hsw, hsegA, hsegB, hframe⟩ :=
            swap_ring hseg1 hseg2 hnd1 hnd2 hdisj
          rw [hsw] at hrun
          simp only [Option.bind_eq_bind, Option.some_bind, Option.some_inj] at hrun
          subst hrun
          have hf1r2 : f1 ∉ f2 :: xs2 := hdisj f1 (List.mem_cons_self _ _)
          have hf2r1 : f2 ∉ f1 :: xs1 := fun hq =>
            hdisj f2 hq (List.mem_cons_self _ _)
          have hndA : (f1 :: xs2).Nodup := List.nodup_cons.2
            ⟨fun hq => hf1r2 (List.mem_cons_of_mem _ hq), (List.nodup_cons.1 hnd2).2⟩
          have hndB : (f2 :: xs1).Nodup := List.nodup_cons.2
            ⟨fun hq => hf2r1 (List.mem_cons_of_mem _ hq), (List.nodup_cons.1 hnd1).2⟩
          refine WF_set_pair hWF [] hg1 hg2 hsegA hndA hsegB hndB ?_ ?_ ?_ (by simp) ?_
          · intro n hn
            rcases List.mem_cons.1 hn with h1 | h1
            · exact Or.inl (h1 ▸ List.mem_cons_self _ _)
            · exact Or.inr (Or.inl (List.mem_cons_of_mem _ h1))
          · intro n hn
            rcases List.mem_cons.1 hn with h1 | h1
            · exact Or.inr (Or.inl (h1 ▸ List.mem_cons_self _ _))
            · exact Or.inl (List.mem_cons_of_mem _ h1)
          · intro _ n hn hq
            rcases List.mem_cons.1 hn with h1 | h1
            · subst h1
              rcases List.mem_cons.1 hq with h2 | h2
              · exact hf1r2 (by rw [h2]; exact List.mem_cons_self _ _)
              · exact (List.nodup_cons.1 hnd1).1 h2
            · rcases List.mem_cons.1 hq with h2 | h2
              · exact (List.nodup_cons.1 hnd2).1 (h2 ▸ h1)
              · exact hdisj n (List.mem_cons_of_mem _ h2) (List.mem_cons_of_mem _ h1)
          · intro n hn1 hn2 _
            have c1 : n ≠ f1 := fun hq => hn1 (hq ▸ List.mem_cons_self _ _)
            have c2 : n ≠ f2 := fun hq => hn2 (hq ▸ List.mem_cons_self _ _)
            have c3 : n ∉ xs1 := fun hq => hn1 (List.mem_cons_of_mem _ hq)
            have c4 : n ∉ xs2 := fun hq => hn2 (List.mem_cons_of_mem _ hq)
            exact hframe n c1 c2 c3 c4
        · simp [hne12] at hrun
  | moveCtorOp li g =>
    simp only [applyOp] at hrun
    cases hg : s.lists[li]? with
    | none => rw [hg] at hrun; simp at hrun
    | some fx =>
      obtain ⟨f, xs⟩ := fx
      rw [hg] at hrun
      simp only [Option.bind_eq_bind, Option.some_bind] at hrun
      by_cases hc : ∀ en ∈ s.lists, g ∉ ring en
      · rw [if_pos hc] at hrun
        obtain ⟨hseg, hnd⟩ := entry_data hWF hg
        have hgfresh : ∀ j : Fin s.lists.length, g ∉ ring (s.lists.get j) := by
          intro j
          refine hc _ ?_
          rw [List.get_eq_getElem]
          exact s.lists.getElem_mem j.isLt
        have hgfxs : g ∉ f :: xs := by
          rcases List.getElem?_eq_some_iff.1 hg with ⟨hlt, hE⟩
          have := hgfresh ⟨li, hlt⟩
          rw [show s.lists.get ⟨li, hlt⟩ = (f, xs) from
            by simpa [List.get_eq_getElem] using hE] at this
          exact this
        have hgf : g ≠ f := fun hq => hgfxs (hq ▸ List.mem_cons_self _ _)
        have hseg1f : seg (mkList s.heap g) f xs f :=
          seg_congr_ring (fun n hn => mkList_ne _ (fun hq => hgfxs (hq ▸ hn))) hseg
        have hseg1g : seg (mkList s.heap g) g [] g :=
          ⟨by rw [mkList_self], by rw [mkList_self]⟩
        have hdisjg : ∀ n ∈ g :: ([] : List Nat), n ∉ f :: xs := by
          intro n hn
          have hng : n = g := by simpa using hn
          rw [hng]
          exact hgfxs
        obtain ⟨h2, hsw, hsegg2, hsegf2, hframe1⟩ :=
          swap_ring hseg1g hseg1f (by simp) hnd hdisjg
        obtain ⟨h3, hcl, hf3, _, hframe3⟩ :=
          clearFuel_ring hsegf2 (by simp) xs.length (Nat.zero_le _)
        have hMC : moveCtor s.heap g f xs.length = some h3 := by
          unfold moveCtor
          simp only [hsw]
          exact hcl
        rw [hMC] at hrun
        simp only [Option.bind_eq_bind, Option.some_bind, Option.some_inj] at hrun
        subst hrun
        refine WF_move_ctor hWF hg hgfresh ⟨by rw [hf3], by rw [hf3]⟩ ?_ ?_ ?_
        · refine seg_congr_ring (fun n hn => ?_) hsegg2
          refine hframe3 n ?_ (by simp)
          rcases List.mem_cons.1 hn with h1 | h1
          · exact fun hq => hgf (h1.symm.trans hq)
          · exact fun hq => (List.nodup_cons.1 hnd).1 (hq ▸ h1)
        · exact List.nodup_cons.2
            ⟨fun hq => hgfxs (List.mem_cons_of_mem _ hq), (List.nodup_cons.1 hnd).2⟩
        · intro n hn hng
          have c1 : n ≠ f := fun hq => hn (hq ▸ List.mem_cons_self _ _)
          have c2 : n ∉ xs := fun hq => hn (List.mem_cons_of_mem _ hq)
          rw [hframe3 n c1 (by simp), hframe1 n hng c1 (by simp) c2, mkList_ne _ hng]
      · rw [if_neg hc] at hrun
        exact Option.noConfusion hrun
  | moveAssignOp li1 li2 =>
    simp only [applyOp] at hrun
    cases hg1 : s.lists[li1]? with
    | none => rw [hg1] at hrun; simp at hrun
    | some fx1 =>
      obtain ⟨f1, xs1⟩ := fx1
      rw [hg1] at hrun
      simp only [Option.bind_eq_bind, Option.some_bind] at hrun
      cases hg2 : s.lists[li2]? with
      | none => rw [hg2] at hrun; simp at hrun
      | some fx2 =>
        obtain ⟨f2, xs2⟩ := fx2
        rw [hg2] at hrun
        simp only [Option.bind_eq_bind, Option.some_bind] at hrun
        by_cases hne12 : li1 ≠ li2
        · rw [if_pos hne12] at hrun
          obtain ⟨hseg1, hnd1⟩ := entry_data hWF hg1
          obtain ⟨hseg2, hnd2⟩ := entry_data hWF hg2
          have hdisj := rings_disjoint hWF hne12 hg1 hg2
          obtain ⟨h2, hsw, hsegA, hsegB, hframe⟩ :=
            swap_ring hseg1 hseg2 hnd1 hnd2 hdisj
          have hf1r2 : f1 ∉ f2 :: xs2 := hdisj f1 (List.mem_cons_self _ _)
          have hf2r1 : f2 ∉ f1 :: xs1 := fun hq =>
            hdisj f2 hq (List.mem_cons_self _ _)
          have hndB : (f2 :: xs1).Nodup := List.nodup_cons.2
            ⟨fun hq => hf2r1 (List.mem_cons_of_mem _ hq), (List.nodup_cons.1 hnd1).2⟩
          obtain ⟨h3, hcl, hf3, _, hframe2⟩ :=
            clearFuel_ring hsegB hndB xs1.length le_rfl
          have hMA : moveAssign s.heap f1 f2 xs1.length = some h3 := by
            unfold moveAssign
            rw [hsw]
            exact hcl
          rw [hMA] at hrun
          simp only [Option.bind_eq_bind, Option.some_bind, Option.some_inj] at hrun
          subst hrun
          have hr1notf2 : ∀ n ∈ f1 :: xs2, n ≠ f2 ∧ n ∉ xs1 := by
            intro n hn
            rcases List.mem_cons.1 hn with h1 | h1
            · subst h1
              exact ⟨fun hq => hf1r2 (by rw [hq]; exact List.mem_cons_self _ _),
                (List.nodup_cons.1 hnd1).1⟩
            · refine ⟨fun hq => (List.nodup_cons.1 hnd2).1 (hq ▸ h1), fun hq =>
                hdisj n (List.mem_cons_of_mem _ hq) (List.mem_cons_of_mem _ h1)⟩
          have hsegA3 : seg h3 f1 xs2 f1 := by
            refine seg_congr_ring (fun n hn => ?_) hsegA
            exact hframe2 n (hr1notf2 n hn).1 (hr1notf2 n hn).2
          have hsegB3 : seg h3 f2 [] f2 := by
            refine ⟨?_, ?_⟩ <;> rw [hf3]
          have hndA : (f1 :: xs2).Nodup := List.nodup_cons.2
            ⟨fun hq => hf1r2 (List.mem_cons_of_mem _ hq), (List.nodup_cons.1 hnd2).2⟩
          refine WF_set_pair hWF [] hg1 hg2 hsegA3 hndA hsegB3 (by simp) ?_ ?_ ?_
            (by simp) ?_
          · intro n hn
            rcases List.mem_cons.1 hn with h1 | h1
            · exact Or.inl (h1 ▸ List.mem_cons_self _ _)
            · exact Or.inr (Or.inl (List.mem_cons_of_mem _ h1))
          · intro n hn
            have : n = f2 := by simpa using hn
            exact Or.inr (Or.inl (this ▸ List.mem_cons_self _ _))
          · intro _ n hn hq
            have : n = f2 := by simpa using hq
            exact (hr1notf2 n hn).1 this
          · intro n hn1 hn2 _
            have c1 : n ≠ f1 := fun hq => hn1 (hq ▸ List.mem_cons_self _ _)
            have c2 : n ≠ f2 := fun hq => hn2 (hq ▸ List.mem_cons_self _ _)
            have c3 : n ∉ xs1 := fun hq => hn1 (List.mem_cons_of_mem _ hq)
            have c4 : n ∉ xs2 := fun hq => hn2 (List.mem_cons_of_mem _ hq)
            rw [hframe2 n c2 c3]
            exact hframe n c1 c2 c3 c4
        · simp [hne12] at hrun

/-- Well-formedness is preserved along any successful run. -/
theorem WF_runOps {s s2 : GState} {ops : List Op} (hWF : WF s)
    (hrun : runOps s ops = some s2) : WF s2 := by
  induction ops generalizing s with
  | nil =>
    simp only [runOps, Option.some_inj] at hrun
    exact hrun ▸ hWF
  | cons op rest ih =>
    simp only [runOps] at hrun
    cases happ : applyOp s op with
    | none => rw [happ] at hrun; exact Option.noConfusion hrun
    | some s1 =>
      rw [happ] at hrun
      exact ih (WF_applyOp hWF happ) hrun

theorem foldl_mkList_notmem {fakes : List Nat} {f : Nat} (hf : f ∉ fakes) :
    ∀ h : Heap, (fakes.foldl mkList h) f = h f := by
  induction fakes with
  | nil => intro h; rfl
  | cons a rest ih =>
    intro h
    have hfa : f ≠ a := fun hq => hf (hq ▸ List.mem_cons_self _ _)
    have hfr : f ∉ rest := fun hq => hf (List.mem_cons_of_mem _ hq)
    rw [List.foldl_cons, ih hfr, mkList_ne _ hfa]

theorem foldl_mkList_mem {fakes : List Nat} (hnd : fakes.Nodup) {f : Nat} (hf : f ∈ fakes) :
    ∀ h : Heap, (fakes.foldl mkList h) f = ⟨some f, some f⟩ := by
  induction fakes with
  | nil => exact absurd hf (List.not_mem_nil f)
  | cons a rest ih =>
    intro h
    rcases List.mem_cons.1 hf with h1 | h1
    · subst h1
      have hfr : f ∉ rest := (List.nodup_cons.1 hnd).1
      rw [List.foldl_cons, foldl_mkList_notmem hfr, mkList_self]
    · rw [List.foldl_cons]
      exact ih (List.nodup_cons.1 hnd).2 h1 _

/-- A family of default-constructed lists with distinct sentinel addresses is
well-formed. -/
theorem WF_initState {fakes : List Nat} (hnd : fakes.Nodup) : WF (initState fakes) := by
  have hlen : (initState fakes).lists.length = fakes.length := by
    simp [initState]
  have hget : ∀ i : Fin (initState fakes).lists.length,
      (initState fakes).lists.get i = (fakes.get (Fin.cast hlen i), []) := by
    intro i
    simp [initState, List.get_eq_getElem]
  constructor
  · intro i
    rw [hget i]
    have hmem : fakes.get (Fin.cast hlen i) ∈ fakes := by
      rw [List.get_eq_getElem]
      exact fakes.getElem_mem _
    refine ⟨⟨?_, ?_⟩, by simp [ring]⟩
    · rw [show (initState fakes).heap (fakes.get (Fin.cast hlen i)) = ⟨some (fakes.get
        (Fin.cast hlen i)), some (fakes.get (Fin.cast hlen i))⟩ from
        foldl_mkList_mem hnd hmem initHeap]
    · rw [show (initState fakes).heap (fakes.get (Fin.cast hlen i)) = ⟨some (fakes.get
        (Fin.cast hlen i)), some (fakes.get (Fin.cast hlen i))⟩ from
        foldl_mkList_mem hnd hmem initHeap]
  · intro i j hij n hni hnj
    rw [hget i] at hni
    rw [hget j] at hnj
    have h1 : n = fakes.get (Fin.cast hlen i) := by simpa [ring] using hni
    have h2 : n = fakes.get (Fin.cast hlen j) := by simpa [ring] using hnj
    have heq := (List.Nodup.get_inj_iff hnd).1 (h1.symm.trans h2)
    exact hij (by simpa [Fin.ext_iff] using heq)

/-- The link invariants of one list object: every node of the ring has
mutual `next`/`prev` references, following `next` (resp. `prev`) from the
sentinel returns to the sentinel after visiting all elements, and the
sentinel is self-linked (in both fields, and as reported by `empty`)
exactly when the list has no elements. -/
def linkedInvariant (h : Heap) (f : Nat) (xs : List Nat) : Prop :=
  (∀ n ∈ f :: xs, ∃ m, (h n).next = some m ∧ (h m).prev = some n) ∧
  (∀ n ∈ f :: xs, ∃ p, (h n).prev = some p ∧ (h p).next = some n) ∧
  nthNext h (xs.length + 1) (some f) = some f ∧
  nthPrev h (xs.length + 1) (some f) = some f ∧
  (empty h f = true ↔ xs = []) ∧
  (((h f).next = some f ∧ (h f).prev = some f) ↔ xs = [])

theorem entryWF_linkedInvariant {h : Heap} {f : Nat} {xs : List Nat}
    (hseg : seg h f xs f) (hnd : (f :: xs).Nodup) : linkedInvariant h f xs := by
  have hfxs : f ∉ xs := (List.nodup_cons.1 hnd).1
  have hnextf : (h f).next = some f ↔ xs = [] := by
    constructor
    · intro hq
      cases xs with
      | nil => rfl
      | cons y t =>
        exfalso
        have hh := seg_head hseg
        rw [hq] at hh
        have hy : y = f := by simpa using hh.symm
        exact hfxs (by rw [← hy]; exact List.mem_cons_self _ _)
    · intro hq
      subst hq
      exact hseg.1
  have hprevf : (h f).prev = some f ↔ xs = [] := by
    constructor
    · intro hq
      rcases List.eq_nil_or_concat xs with rfl | ⟨u, lst, rfl⟩
      · rfl
      · exfalso
        have hh := seg_last hseg
        rw [hq, List.concat_eq_append] at hh
        have hl : (u ++ [lst]).getLastD f = f := by simpa using hh.symm
        rw [List.getLastD_concat] at hl
        refine hfxs ?_
        rw [List.concat_eq_append, ← hl]
        exact List.mem_append_right _ (List.mem_cons_self _ _)
    · intro hq
      subst hq
      exact hseg.2
  refine ⟨seg_next_total hseg, ?_, seg_nthNext hseg, seg_nthPrev hseg, ?_, ?_⟩
  · intro n hn
    rcases List.mem_cons.1 hn with h1 | h1
    · exact seg_prev_total hseg n
        (by rw [h1]; exact List.mem_append_right _ (List.mem_cons_self _ _))
    · exact seg_prev_total hseg n (List.mem_append_left _ h1)
  · rw [show empty h f = (some f == (h f).next) from rfl]
    rw [show ((some f == (h f).next) = true) = (some f = (h f).next) from
      propext beq_iff_eq]
    rw [show (some f = (h f).next) ↔ ((h f).next = some f) from eq_comm]
    exact hnextf
  · constructor
    · intro hq
      exact hnextf.1 hq.1
    · intro hq
      exact ⟨hnextf.2 hq, hprevf.2 hq⟩

/-- C1: after any precondition-respecting sequence of list operations applied
to freshly constructed lists, every list satisfies the link invariants:
mutual `next`/`prev` references at every linked node, the `next` chain from
the sentinel returns to the sentinel (and symmetrically for `prev`), and the
sentinel is self-linked in both fields exactly when the list is empty. -/
theorem C1_link_invariants {fakes : List Nat} {ops : List Op} {s2 : GState}
    (hnd : fakes.Nodup) (hrun : runOps (initState fakes) ops = some s2) :
    ∀ en ∈ s2.lists, linkedInvariant s2.heap en.1 en.2 := by
  have hWF := WF_runOps (WF_initState hnd) hrun
  intro en hen
  obtain ⟨idx, hE⟩ := List.mem_iff_get.1 hen
  have hw := hWF.1 idx
  rw [hE] at hw
  exact entryWF_linkedInvariant hw.1 hw.2

def c1ops : List Op :=
  [Op.pushBack 0 2, Op.pushFront 0 3, Op.insertAt 0 1 4, Op.spliceOp 1 0 0 0 2,
   Op.popBack 0, Op.swapOp 0 1, Op.moveCtorOp 0 5, Op.eraseAt 2 0, Op.clearOp 2,
   Op.pushBack 2 7, Op.moveAssignOp 0 2]

/-! ## C2: refinement against a reference sequence container

`DOp`/`dequeStep`/`dequeRun` are the reference model, written from the
spec's words (a deque undergoing the same push/pop operations), to be
compared with the list embedding. -/

inductive DOp where
  | dpushBack (e : Nat)
  | dpushFront (e : Nat)
  | dpopBack
  | dpopFront
deriving DecidableEq, Repr

/-- One step of the reference sequence container. -/
def dequeStep (xs : List Nat) : DOp → List Nat
  | .dpushBack e => xs ++ [e]
  | .dpushFront e => e :: xs
  | .dpopBack => xs.dropLast
  | .dpopFront => xs.tail

/-- The reference sequence container after a whole run. -/
def dequeRun (xs : List Nat) (ops : List DOp) : List Nat :=
  ops.foldl dequeStep xs

/-- The list operation corresponding to a reference-container operation. -/
def toOp (li : Nat) : DOp → Op
  | .dpushBack e => Op.pushBack li e
  | .dpushFront e => Op.pushFront li e
  | .dpopBack => Op.popBack li
  | .dpopFront => Op.popFront li

theorem applyOp_deque_ghost {s s1 : GState} {li f : Nat} {xs : List Nat} {dop : DOp}
    (hget : s.lists[li]? = some (f, xs))
    (happ : applyOp s (toOp li dop) = some s1) :
    s1.lists[li]? = some (f, dequeStep xs dop) := by
  have hlt : li < s.lists.length := (List.getElem?_eq_some_iff.1 hget).1
  cases dop with
  | dpushBack e =>
    simp only [toOp, applyOp] at happ
    rw [hget] at happ
    simp only [Option.bind_eq_bind, Option.some_bind] at happ
    by_cases hd : detached s.heap e
    · rw [if_pos hd] at happ
      cases hpb : push_back s.heap f e with
      | none => rw [hpb] at happ; simp at happ
      | some h2 =>
        rw [hpb] at happ
        simp only [Option.bind_eq_bind, Option.some_bind, Option.some_inj] at happ
        subst happ
        show (s.lists.set li (f, xs ++ [e]))[li]? = some (f, xs ++ [e])
        exact List.getElem?_set_self (by simpa using hlt)
    · rw [if_neg hd] at happ
      exact Option.noConfusion happ
  | dpushFront e =>
    simp only [toOp, applyOp] at happ
    rw [hget] at happ
    simp only [Option.bind_eq_bind, Option.some_bind] at happ
    by_cases hd : detached s.heap e
    · rw [if_pos hd] at happ
      cases hpb : push_front s.heap f e with
      | none => rw [hpb] at happ; simp at happ
      | some h2 =>
        rw [hpb] at happ
        simp only [Option.bind_eq_bind, Option.some_bind, Option.some_inj] at happ
        subst happ
        show (s.lists.set li (f, e :: xs))[li]? = some (f, e :: xs)
        exact List.getElem?_set_self (by simpa using hlt)
    · rw [if_neg hd] at happ
      exact Option.noConfusion happ
  | dpopBack =>
    simp only [toOp, applyOp] at happ
    rw [hget] at happ
    simp only [Option.bind_eq_bind, Option.some_bind] at happ
    by_cases hne : xs ≠ []
    · rw [if_pos hne] at happ
      cases hpb : pop_back s.heap f with
      | none => rw [hpb] at happ; simp at happ
      | some h2 =>
        rw [hpb] at happ
        simp only [Option.bind_eq_bind, Option.some_bind, Option.some_inj] at happ
        subst happ
        show (s.lists.set li (f, xs.dropLast))[li]? = some (f, xs.dropLast)
        exact List.getElem?_set_self (by simpa using hlt)
    · rw [if_neg hne] at happ
      exact Option.noConfusion happ
  | dpopFront =>
    simp only [toOp, applyOp] at happ
    rw [hget] at happ
    simp only [Option.bind_eq_bind, Option.some_bind] at happ
    by_cases hne : xs ≠ []
    · rw [if_pos hne] at happ
      cases hpb : pop_front s.heap f with
      | none => rw [hpb] at happ; simp at happ
      | some h2 =>
        rw [hpb] at happ
        simp only [Option.bind_eq_bind, Option.some_bind, Option.some_inj] at happ
        subst happ
        show (s.lists.set li (f, xs.tail))[li]? = some (f, xs.tail)
        exact List.getElem?_set_self (by simpa using hlt)
    · rw [if_neg hne] at happ
      exact Option.noConfusion happ

theorem ghost_deque {li : Nat} {f : Nat} {dops : List DOp} :
    ∀ {s s2 : GState} {xs : List Nat}, s.lists[li]? = some (f, xs) →
    runOps s (dops.map (toOp li)) = some s2 →
    s2.lists[li]? = some (f, dequeRun xs dops) := by
  induction dops with
  | nil =>
    intro s s2 xs hget hrun
    simp only [List.map_nil, runOps, Option.some_inj] at hrun
    subst hrun
    exact hget
  | cons dop rest ih =>
    intro s s2 xs hget hrun
    simp only [List.map_cons, runOps] at hrun
    cases happ : applyOp s (toOp li dop) with
    | none => rw [happ] at hrun; exact Option.noConfusion hrun
    | some s1 =>
      rw [happ] at hrun
      have hg1 := applyOp_deque_ghost hget happ
      show s2.lists[li]? = some (f, dequeRun (dequeStep xs dop) rest)
      exact ih hg1 hrun

/-- C2: a run of push/pop operations in which every pop hits a non-empty
list (encoded by the run succeeding) leaves the list holding exactly the
element sequence of a reference deque under the same operations, as read
from `begin()` by following `next`, and `empty()` is true exactly when the
reference sequence is empty. -/
theorem C2_deque_refinement {fakes : List Nat} {li f : Nat} {dops : List DOp}
    {s2 : GState} (hnd : fakes.Nodup)
    (hget : (initState fakes).lists[li]? = some (f, []))
    (hrun : runOps (initState fakes) (dops.map (toOp li)) = some s2) :
    heapToList s2.heap f (dequeRun [] dops).length = some (dequeRun [] dops) ∧
    (empty s2.heap f = true ↔ dequeRun [] dops = []) := by
  have hWF := WF_runOps (WF_initState hnd) hrun
  have hg2 := ghost_deque hget hrun
  obtain ⟨hseg, hnd2⟩ := entry_data hWF hg2
  refine ⟨seg_heapToList hseg (List.nodup_cons.1 hnd2).1, ?_⟩
  exact (entryWF_linkedInvariant hseg hnd2).2.2.2.2.1

def c2dops : List DOp :=
  [DOp.dpushBack 5, DOp.dpushFront 6, DOp.dpushBack 7, DOp.dpopBack, DOp.dpushFront 8,
   DOp.dpopFront]

theorem C2_deque_refinement_witness :
    heapToList (Option.get (runOps (initState [0]) (c2dops.map (toOp 0))) (by decide)).heap
        0 (dequeRun [] c2dops).length = some (dequeRun [] c2dops) ∧
    (empty (Option.get (runOps (initState [0]) (c2dops.map (toOp 0))) (by decide)).heap
        0 = true ↔ dequeRun [] c2dops = []) :=
  C2_deque_refinement (by decide) (by decide) (Option.some_get (by decide)).symm

theorem C1_link_invariants_witness :
    linkedInvariant (Option.get (runOps (initState [0, 1]) c1ops) (by decide)).heap
      0 [7] :=
  C1_link_invariants (by decide) (Option.some_get (by decide)).symm (0, [7]) (by decide)

/-! ## Pointwise chain facts used by the erase/insert claims -/

theorem seg_headD_prev {h : Heap} {f : Nat} {u v : List Nat}
    (hs : seg h f (u ++ v) f) : (h (v.headD f)).prev = some (u.getLastD f) := by
  cases v with
  | nil =>
    have hl := seg_last hs
    rw [List.append_nil] at hl
    simpa using hl
  | cons y t =>
    have hsp : seg h f u y := (seg_append.1 hs).1
    simpa using seg_last hsp

theorem seg_getLastD_next {h : Heap} {f : Nat} {u v : List Nat}
    (hs : seg h f (u ++ v) f) : (h (u.getLastD f)).next = some (v.headD f) := by
  cases v with
  | nil =>
    rw [List.append_nil] at hs
    simpa using seg_getLast_next hs
  | cons y t =>
    have hsp : seg h f u y := (seg_append.1 hs).1
    simpa using seg_getLast_next hsp

/-- C3: for a node `pos` of the list (hence `pos != end()`), `erase(pos)`
returns exactly the iterator value that `next(pos)` held immediately before
the call (the node after `pos`), detaches `pos`, bridges its former
neighbors to each other, keeps the rest of the ring intact, and changes no
other node's links. -/
theorem C3_erase {h : Heap} {f pos : Nat} {u v : List Nat}
    (hseg : seg h f (u ++ pos :: v) f) (hnd : (f :: (u ++ pos :: v)).Nodup) :
    (erase h pos).2 = (h pos).next ∧
    (h pos).next = some (v.headD f) ∧
    (erase h pos).1 pos = ⟨none, none⟩ ∧
    seg (erase h pos).1 f (u ++ v) f ∧
    ((erase h pos).1 (u.getLastD f)).next = some (v.headD f) ∧
    ((erase h pos).1 (v.headD f)).prev = some (u.getLastD f) ∧
    (∀ n, n ≠ pos → n ≠ u.getLastD f → ((erase h pos).1 n).next = (h n).next) ∧
    (∀ n, n ≠ pos → n ≠ v.headD f → ((erase h pos).1 n).prev = (h n).prev) := by
  obtain ⟨hseg2, hdet, hnextF, hprevF⟩ := unlink_ring hseg hnd
  have hposnext : (h pos).next = some (v.headD f) := seg_head (seg_append.1 hseg).2
  have hnd0 := List.nodup_cons.1 hnd
  have hfpos : f ≠ pos := fun hq =>
    hnd0.1 (by rw [hq]; exact List.mem_append_right _ (List.mem_cons_self _ _))
  have hmid : (pos :: (u ++ v)).Nodup := List.nodup_middle.1 hnd0.2
  have hposu : pos ∉ u := fun hq =>
    (List.nodup_cons.1 hmid).1 (List.mem_append_left _ hq)
  have hposv : pos ∉ v := fun hq =>
    (List.nodup_cons.1 hmid).1 (List.mem_append_right _ hq)
  have hwne : u.getLastD f ≠ pos := by
    rcases List.mem_cons.1 (List.getLastD_mem_cons u f) with h1 | h1
    · rw [h1]; exact hfpos
    · exact fun hq => hposu (hq ▸ h1)
  have hpne : v.headD f ≠ pos := by
    rcases List.mem_cons.1 (headD_mem_cons v f) with h1 | h1
    · rw [h1]; exact hfpos
    · exact fun hq => hposv (hq ▸ h1)
  refine ⟨rfl, hposnext, hdet, hseg2, ?_, ?_, ?_, ?_⟩
  · rw [show ((erase h pos).1 (u.getLastD f)).next
        = ((unlink h pos) (u.getLastD f)).next from rfl,
      hnextF, if_neg hwne, if_pos rfl]
  · rw [show ((erase h pos).1 (v.headD f)).prev
        = ((unlink h pos) (v.headD f)).prev from rfl,
      hprevF, if_neg hpne, if_pos rfl]
  · intro n h1 h2
    rw [show ((erase h pos).1 n).next = ((unlink h pos) n).next from rfl,
      hnextF, if_neg h1, if_neg h2]
  · intro n h1 h2
    rw [show ((erase h pos).1 n).prev = ((unlink h pos) n).prev from rfl,
      hprevF, if_neg h1, if_neg h2]

def c3heap : Heap := fun n =>
  if n = 0 then ⟨some 1, some 2⟩
  else if n = 1 then ⟨some 2, some 0⟩
  else if n = 2 then ⟨some 0, some 1⟩
  else ⟨none, none⟩

theorem C3_erase_witness :
    (erase c3heap 1).2 = (c3heap 1).next ∧
    (c3heap 1).next = some ([2].headD 0) ∧
    (erase c3heap 1).1 1 = ⟨none, none⟩ ∧
    seg (erase c3heap 1).1 0 ([] ++ [2]) 0 ∧
    ((erase c3heap 1).1 ([].getLastD 0)).next = some ([2].headD 0) ∧
    ((erase c3heap 1).1 ([2].headD 0)).prev = some ([].getLastD 0) ∧
    (∀ n, n ≠ 1 → n ≠ [].getLastD 0 → ((erase c3heap 1).1 n).next = (c3heap n).next) ∧
    (∀ n, n ≠ 1 → n ≠ [2].headD 0 → ((erase c3heap 1).1 n).prev = (c3heap n).prev) :=
  @C3_erase c3heap 0 1 [] [2] (by decide) (by decide)

/-- C4: `splice(pos, other, first, last)` moves exactly the nodes of the
half-open range `[first, last)` (the sublist `mid`) out of the source ring
and re-links them, in the same relative order, immediately before `pos` in
the destination ring; the combined length of the two lists is conserved,
and when `first = last` (empty range) the whole heap is left unchanged. -/
theorem C4_splice {h : Heap} {f1 f2 : Nat} {u1 v1 u2 mid v2 : List Nat}
    (hs1 : seg h f1 (u1 ++ v1) f1) (hs2 : seg h f2 (u2 ++ (mid ++ v2)) f2)
    (hnd1 : (f1 :: (u1 ++ v1)).Nodup) (hnd2 : (f2 :: (u2 ++ (mid ++ v2))).Nodup)
    (hdisj : ∀ n, n ∈ f1 :: (u1 ++ v1) → n ∉ f2 :: (u2 ++ (mid ++ v2))) :
    ∃ h2, splice h (v1.headD f1) ((mid ++ v2).headD f2) (v2.headD f2) = some h2 ∧
      seg h2 f1 (u1 ++ (mid ++ v1)) f1 ∧
      seg h2 f2 (u2 ++ v2) f2 ∧
      (u1 ++ (mid ++ v1)).length + (u2 ++ v2).length
        = (u1 ++ v1).length + (u2 ++ (mid ++ v2)).length ∧
      (mid = [] → h2 = h) := by
  obtain ⟨h2, hspl, hsA, hsB, _, hnil⟩ := splice_ring hs1 hs2 hnd1 hnd2 hdisj
  refine ⟨h2, hspl, hsA, hsB, ?_, hnil⟩
  simp only [List.length_append]
  omega

def c4heap : Heap := fun n =>
  if n = 0 then ⟨some 2, some 2⟩
  else if n = 2 then ⟨some 0, some 0⟩
  else if n = 1 then ⟨some 3, some 4⟩
  else if n = 3 then ⟨some 4, some 1⟩
  else if n = 4 then ⟨some 1, some 3⟩
  else ⟨none, none⟩

theorem C4_splice_witness :
    ∃ h2, splice c4heap ([2].headD 0) (([3] ++ [4]).headD 1) ([4].headD 1) = some h2 ∧
      seg h2 0 ([] ++ ([3] ++ [2])) 0 ∧
      seg h2 1 ([] ++ [4]) 1 ∧
      ([] ++ ([3] ++ [2])).length + ([] ++ [4]).length
        = ([] ++ [2]).length + ([] ++ ([3] ++ [4])).length ∧
      ([3] = ([] : List Nat) → h2 = c4heap) :=
  @C4_splice c4heap 0 1 [] [2] [] [3] [4]
    (by decide) (by decide) (by decide) (by decide) (by decide)

/-- C5: `swap` exchanges the element sequences of two disjoint lists —
including when either or both are empty — and swapping twice in a row
restores both original sequences. -/
theorem C5_swap {h : Heap} {f1 f2 : Nat} {xs1 xs2 : List Nat}
    (hs1 : seg h f1 xs1 f1) (hs2 : seg h f2 xs2 f2)
    (hnd1 : (f1 :: xs1).Nodup) (hnd2 : (f2 :: xs2).Nodup)
    (hdisj : ∀ n, n ∈ f1 :: xs1 → n ∉ f2 :: xs2) :
    ∃ h2, listSwap h f1 f2 = some h2 ∧ seg h2 f1 xs2 f1 ∧ seg h2 f2 xs1 f2 ∧
      ∃ h3, listSwap h2 f1 f2 = some h3 ∧ seg h3 f1 xs1 f1 ∧ seg h3 f2 xs2 f2 := by
  obtain ⟨h2, hsw, hsA, hsB, _⟩ := swap_ring hs1 hs2 hnd1 hnd2 hdisj
  have hf1r2 : f1 ∉ f2 :: xs2 := hdisj f1 (List.mem_cons_self _ _)
  have hf2r1 : f2 ∉ f1 :: xs1 := fun hq => hdisj f2 hq (List.mem_cons_self _ _)
  have hndA : (f1 :: xs2).Nodup := List.nodup_cons.2
    ⟨fun hq => hf1r2 (List.mem_cons_of_mem _ hq), (List.nodup_cons.1 hnd2).2⟩
  have hndB : (f2 :: xs1).Nodup := List.nodup_cons.2
    ⟨fun hq => hf2r1 (List.mem_cons_of_mem _ hq), (List.nodup_cons.1 hnd1).2⟩
  have hdisj2 : ∀ n, n ∈ f1 :: xs2 → n ∉ f2 :: xs1 := by
    intro n hn hq
    rcases List.mem_cons.1 hn with h1 | h1
    · subst h1
      rcases List.mem_cons.1 hq with h2 | h2
      · exact hf1r2 (by rw [h2]; exact List.mem_cons_self _ _)
      · exact (List.nodup_cons.1 hnd1).1 h2
    · rcases List.mem_cons.1 hq with h2 | h2
      · exact (List.nodup_cons.1 hnd2).1 (h2 ▸ h1)
      · exact hdisj n (List.mem_cons_of_mem _ h2) (List.mem_cons_of_mem _ h1)
  obtain ⟨h3, hsw2, hsA2, hsB2, _⟩ := swap_ring hsA hsB hndA hndB hdisj2
  exact ⟨h2, hsw, hsA, hsB, h3, hsw2, hsA2, hsB2⟩

def c5heap : Heap := fun n =>
  if n = 0 then ⟨some 2, some 3⟩
  else if n = 2 then ⟨some 3, some 0⟩
  else if n = 3 then ⟨some 0, some 2⟩
  else if n = 1 then ⟨some 1, some 1⟩
  else ⟨none, none⟩

theorem C5_swap_witness :
    ∃ h2, listSwap c5heap 0 1 = some h2 ∧ seg h2 0 [] 0 ∧ seg h2 1 [2, 3] 1 ∧
      ∃ h3, listSwap h2 0 1 = some h3 ∧ seg h3 0 [2, 3] 0 ∧ seg h3 1 [] 1 :=
  @C5_swap c5heap 0 1 [2, 3] []
    (by decide) (by decide) (by decide) (by decide) (by decide)

/-- C6: move-construction into a fresh list `g`, and move-assignment of a
source list into a distinct destination list, both leave the source empty
(sentinel self-linked, `empty()` true) and the destination holding exactly
the source's former elements in their former order. -/
theorem C6_move {h : Heap} {f g f1 f2 : Nat} {xs xs1 xs2 : List Nat}
    (hs : seg h f xs f) (hnd : (f :: xs).Nodup) (hg : g ∉ f :: xs)
    (hs1 : seg h f1 xs1 f1) (hs2 : seg h f2 xs2 f2)
    (hnd1 : (f1 :: xs1).Nodup) (hnd2 : (f2 :: xs2).Nodup)
    (hdisj : ∀ n, n ∈ f1 :: xs1 → n ∉ f2 :: xs2) :
    (∃ h2, moveCtor h g f xs.length = some h2 ∧
      seg h2 g xs g ∧ seg h2 f [] f ∧ empty h2 f = true) ∧
    (∃ h3, moveAssign h f1 f2 xs1.length = some h3 ∧
      seg h3 f1 xs2 f1 ∧ seg h3 f2 [] f2 ∧ empty h3 f2 = true) := by
  constructor
  · have hgf : g ≠ f := fun hq => hg (hq ▸ List.mem_cons_self _ _)
    have hseg1f : seg (mkList h g) f xs f :=
      seg_congr_ring (fun n hn => mkList_ne _ (fun hq => hg (hq ▸ hn))) hs
    have hseg1g : seg (mkList h g) g [] g :=
      ⟨by rw [mkList_self], by rw [mkList_self]⟩
    have hdisjg : ∀ n ∈ g :: ([] : List Nat), n ∉ f :: xs := by
      intro n hn
      have hng : n = g := by simpa using hn
      rw [hng]
      exact hg
    obtain ⟨h2, hsw, hsegg2, hsegf2, _⟩ :=
      swap_ring hseg1g hseg1f (by simp) hnd hdisjg
    obtain ⟨h3, hcl, hf3, _, hframe3⟩ :=
      clearFuel_ring hsegf2 (by simp) xs.length (Nat.zero_le _)
    have hMC : moveCtor h g f xs.length = some h3 := by
      unfold moveCtor
      simp only [hsw]
      exact hcl
    refine ⟨h3, hMC, ?_, ⟨by rw [hf3], by rw [hf3]⟩, by simp [empty, hf3]⟩
    refine seg_congr_ring (fun n hn => ?_) hsegg2
    refine hframe3 n ?_ (by simp)
    rcases List.mem_cons.1 hn with h1 | h1
    · exact fun hq => hgf (h1.symm.trans hq)
    · exact fun hq => (List.nodup_cons.1 hnd).1 (hq ▸ h1)
  · obtain ⟨h2, hsw, hsegA, hsegB, hframe⟩ := swap_ring hs1 hs2 hnd1 hnd2 hdisj
    have hf2r1 : f2 ∉ f1 :: xs1 := fun hq => hdisj f2 hq (List.mem_cons_self _ _)
    have hndB : (f2 :: xs1).Nodup := List.nodup_cons.2
      ⟨fun hq => hf2r1 (List.mem_cons_of_mem _ hq), (List.nodup_cons.1 hnd1).2⟩
    obtain ⟨h3, hcl, hf3, _, hframe2⟩ := clearFuel_ring hsegB hndB xs1.length le_rfl
    have hMA : moveAssign h f1 f2 xs1.length = some h3 := by
      unfold moveAssign
      rw [hsw]
      exact hcl
    have hf1r2 : f1 ∉ f2 :: xs2 := hdisj f1 (List.mem_cons_self _ _)
    have hr1notf2 : ∀ n ∈ f1 :: xs2, n ≠ f2 ∧ n ∉ xs1 := by
      intro n hn
      rcases List.mem_cons.1 hn with h1 | h1
      · subst h1
        exact ⟨fun hq => hf1r2 (by rw [hq]; exact List.mem_cons_self _ _),
          (List.nodup_cons.1 hnd1).1⟩
      · exact ⟨fun hq => (List.nodup_cons.1 hnd2).1 (hq ▸ h1), fun hq =>
          hdisj n (List.mem_cons_of_mem _ hq) (List.mem_cons_of_mem _ h1)⟩
    refine ⟨h3, hMA, ?_, ⟨by rw [hf3], by rw [hf3]⟩, by simp [empty, hf3]⟩
    refine seg_congr_ring (fun n hn => ?_) hsegA
    exact hframe2 n (hr1notf2 n hn).1 (hr1notf2 n hn).2

def c6heap : Heap := fun n =>
  if n = 0 then ⟨some 4, some 4⟩
  else if n = 4 then ⟨some 0, some 0⟩
  else if n = 1 then ⟨some 6, some 6⟩
  else if n = 6 then ⟨some 1, some 1⟩
  else if n = 2 then ⟨some 7, some 7⟩
  else if n = 7 then ⟨some 2, some 2⟩
  else ⟨none, none⟩

theorem C6_move_witness :
    (∃ h2, moveCtor c6heap 5 0 [4].length = some h2 ∧
      seg h2 5 [4] 5 ∧ seg h2 0 [] 0 ∧ empty h2 0 = true) ∧
    (∃ h3, moveAssign c6heap 1 2 [6].length = some h3 ∧
      seg h3 1 [7] 1 ∧ seg h3 2 [] 2 ∧ empty h3 2 = true) :=
  @C6_move c6heap 0 5 1 2 [4] [6] [7] (by decide) (by decide) (by decide)
    (by decide) (by decide) (by decide) (by decide) (by decide)

/-- C7: `unlink` on a linked node bridges its neighbors (`prev.next = next`,
`next.prev = prev`) and then nulls its own links, modifying no node other
than these three; on an already-detached node it is a complete no-op, so
unlinking twice in a row equals unlinking once. -/
theorem C7_unlink {h : Heap} {a nx pw : Nat}
    (hn : (h a).next = some nx) (hp : (h a).prev = some pw)
    (hna : nx ≠ a) (hpa : pw ≠ a) :
    ((unlink h a) pw).next = some nx ∧
    ((unlink h a) nx).prev = some pw ∧
    (unlink h a) a = ⟨none, none⟩ ∧
    (∀ n, n ≠ a → n ≠ pw → n ≠ nx → (unlink h a) n = h n) ∧
    (∀ h0 : Heap, ∀ b : Nat, (h0 b).next = none → (h0 b).prev = none →
      unlink h0 b = h0) ∧
    (∀ h0 : Heap, ∀ b : Nat, unlink (unlink h0 b) b = unlink h0 b) := by
  have hnf := unlink_nf hn hp hna
  refine ⟨?_, ?_, unlink_self h a, ?_,
    fun h0 b hn0 hp0 => unlink_detached hn0 hp0, fun h0 b => unlink_idem h0 b⟩
  · rw [hnf]
    simp [setNext, setPrev, hpa]
  · rw [hnf]
    by_cases hq : nx = pw
    · subst hq
      simp [setNext, setPrev, hna]
    · simp [setNext, setPrev, hna, hq]
  · intro n h1 h2 h3
    rw [hnf]
    simp [setNext, setPrev, h1, h2, h3]

def c7heap : Heap := fun n =>
  if n = 0 then ⟨some 1, some 2⟩
  else if n = 1 then ⟨some 2, some 0⟩
  else if n = 2 then ⟨some 0, some 1⟩
  else ⟨none, none⟩

theorem C7_unlink_witness :
    ((unlink c7heap 1) 0).next = some 2 ∧
    ((unlink c7heap 1) 2).prev = some 0 ∧
    (unlink c7heap 1) 1 = ⟨none, none⟩ ∧
    (∀ n, n ≠ 1 → n ≠ 0 → n ≠ 2 → (unlink c7heap 1) n = c7heap n) ∧
    (∀ h0 : Heap, ∀ b : Nat, (h0 b).next = none → (h0 b).prev = none →
      unlink h0 b = h0) ∧
    (∀ h0 : Heap, ∀ b : Nat, unlink (unlink h0 b) b = unlink h0 b) :=
  @C7_unlink c7heap 1 2 0 (by decide) (by decide) (by decide) (by decide)

/-- C8: for a detached element `e` and any position of the list — the head
of `v`, with `v = []` standing for `end()` — `insert` links `e` immediately
before that position and returns an iterator referencing `e`; moreover
`push_back` computes exactly `insert` at `end()`. -/
theorem C8_insert {h : Heap} {f e : Nat} {u v : List Nat}
    (hs : seg h f (u ++ v) f) (hnd : (f :: (u ++ v)).Nodup)
    (he : e ∉ f :: (u ++ v)) :
    ∃ h2, insert h (v.headD f) e = some (h2, e) ∧
      seg h2 f (u ++ e :: v) f ∧
      (h2 e).next = some (v.headD f) ∧
      push_back h f e = (insert h f e).map Prod.fst := by
  obtain ⟨h2, hins, hseg2, hnextF, _⟩ := insert_ring hs hnd he
  have hef : e ≠ f := fun hq => he (hq ▸ List.mem_cons_self _ _)
  have heu : e ∉ u := fun hq => he (List.mem_cons_of_mem _ (List.mem_append_left _ hq))
  have c1 : e ≠ u.getLastD f := ne_of_not_mem_cons (List.getLastD_mem_cons u f) hef heu
  refine ⟨h2, hins, hseg2, ?_, push_back_eq_insert h f e⟩
  rw [hnextF, if_neg c1, if_pos rfl]

def c8heap : Heap := fun n =>
  if n = 0 then ⟨some 2, some 2⟩
  else if n = 2 then ⟨some 0, some 0⟩
  else ⟨none, none⟩

theorem C8_insert_witness :
    ∃ h2, insert c8heap ([2].headD 0) 3 = some (h2, 3) ∧
      seg h2 0 ([] ++ 3 :: [2]) 0 ∧
      (h2 3).next = some ([2].headD 0) ∧
      push_back c8heap 0 3 = (insert c8heap 0 3).map Prod.fst :=
  @C8_insert c8heap 0 3 [] [2] (by decide) (by decide) (by decide)

/-- C9: inserting a detached element before any position and then
immediately erasing the returned iterator restores every node's `next` and
`prev` to their pre-insert values (the whole heap is restored exactly),
the erase returns the original position, and the element is detached
again. -/
theorem C9_insert_erase {h : Heap} {f e : Nat} {u v : List Nat}
    (hs : seg h f (u ++ v) f) (hnd : (f :: (u ++ v)).Nodup)
    (he : e ∉ f :: (u ++ v)) (hdet : detached h e) :
    ∃ h2, insert h (v.headD f) e = some (h2, e) ∧
      (erase h2 e).1 = h ∧
      (erase h2 e).2 = some (v.headD f) ∧
      detached (erase h2 e).1 e := by
  obtain ⟨h2, hins, hseg2, hnextF, hprevF⟩ := insert_ring hs hnd he
  have hnd2 : (f :: (u ++ e :: v)).Nodup := nodup_insertMid hnd he
  obtain ⟨_, _, hnextF2, hprevF2⟩ := unlink_ring hseg2 hnd2
  have hef : e ≠ f := fun hq => he (hq ▸ List.mem_cons_self _ _)
  have heu : e ∉ u := fun hq => he (List.mem_cons_of_mem _ (List.mem_append_left _ hq))
  have hev : e ∉ v := fun hq => he (List.mem_cons_of_mem _ (List.mem_append_right _ hq))
  have c1 : e ≠ u.getLastD f := ne_of_not_mem_cons (List.getLastD_mem_cons u f) hef heu
  have c2 : e ≠ v.headD f := ne_of_not_mem_cons (headD_mem_cons v f) hef hev
  have heq : (erase h2 e).1 = h := by
    funext n
    show (unlink h2 e) n = h n
    by_cases h1 : n = e
    · subst h1
      ext
      · rw [hnextF2, if_pos rfl, hdet.1]
      · rw [hprevF2, if_pos rfl, hdet.2]
    · ext
      · rw [hnextF2, if_neg h1]
        by_cases h2q : n = u.getLastD f
        · rw [if_pos h2q, h2q, seg_getLastD_next hs]
        · rw [if_neg h2q, hnextF, if_neg h2q, if_neg h1]
      · rw [hprevF2, if_neg h1]
        by_cases h2q : n = v.headD f
        · rw [if_pos h2q, h2q, seg_headD_prev hs]
        · rw [if_neg h2q, hprevF, if_neg h2q, if_neg h1]
  have hretq : (erase h2 e).2 = some (v.headD f) := by
    show (h2 e).next = some (v.headD f)
    rw [hnextF, if_neg c1, if_pos rfl]
  exact ⟨h2, hins, heq, hretq, by rw [heq]; exact hdet⟩

def c9heap : Heap := fun n =>
  if n = 0 then ⟨some 2, some 2⟩
  else if n = 2 then ⟨some 0, some 0⟩
  else ⟨none, none⟩

theorem C9_insert_erase_witness :
    ∃ h2, insert c9heap ([2].headD 0) 3 = some (h2, 3) ∧
      (erase h2 3).1 = c9heap ∧
      (erase h2 3).2 = some ([2].headD 0) ∧
      detached (erase h2 3).1 3 :=
  @C9_insert_erase c9heap 0 3 [] [2] (by decide) (by decide) (by decide) (by decide)

/-- C10: on an empty list, `pop_back` and `pop_front` do not fault: each
invokes `unlink` on the sentinel itself, which nulls both sentinel links,
after which `empty()` returns false even though the list holds no
elements — the sentinel invariant is broken. -/
theorem C10_pop_empty {h : Heap} {f : Nat} (hf : h f = ⟨some f, some f⟩) :
    ∃ h2, pop_back h f = some h2 ∧ h2 f = ⟨none, none⟩ ∧ empty h2 f = false ∧
      (∀ n, n ≠ f → h2 n = h n) ∧
      ∃ h3, pop_front h f = some h3 ∧ h3 f = ⟨none, none⟩ ∧ empty h3 f = false ∧
        (∀ n, n ≠ f → h3 n = h n) := by
  have hprev : (h f).prev = some f := by rw [hf]
  have hnext : (h f).next = some f := by rw [hf]
  have hub : pop_back h f = some (unlink h f) := by
    unfold pop_back
    simp only [hprev]
  have huf : pop_front h f = some (unlink h f) := by
    unfold pop_front
    simp only [hnext]
  have hframe : ∀ n, n ≠ f → (unlink h f) n = h n := by
    intro n hn
    unfold unlink
    simp [hnext, hprev, setNext, setPrev, hn]
  have hemp : empty (unlink h f) f = false := by
    simp [empty, unlink_self]
  exact ⟨unlink h f, hub, unlink_self h f, hemp, hframe,
    unlink h f, huf, unlink_self h f, hemp, hframe⟩

def c10heap : Heap := fun n =>
  if n = 0 then ⟨some 0, some 0⟩ else ⟨none, none⟩

theorem C10_pop_empty_witness :
    ∃ h2, pop_back c10heap 0 = some h2 ∧ h2 0 = ⟨none, none⟩ ∧
      empty h2 0 = false ∧ (∀ n, n ≠ 0 → h2 n = c10heap n) ∧
      ∃ h3, pop_front c10heap 0 = some h3 ∧ h3 0 = ⟨none, none⟩ ∧
        empty h3 0 = false ∧ (∀ n, n ≠ 0 → h3 n = c10heap n) :=
  @C10_pop_empty c10heap 0 (by decide)

end IntrusiveList
